import Mathlib

/-!
Verification of the object-diff engine
(`src/packages/object-diff/src/app/services/object-diff-service.ts`).

The TypeScript source is shallowly embedded: JavaScript runtime values are
the inductive type `Value`, the lodash helpers used by the service
(`isEqual`, `isNil`, `intersection`, `sortBy`, `find`, `size`) and the
JavaScript primitives it relies on (truthiness, `toString`,
`toLowerCase`, `JSON.stringify`, the abstract relational comparison
behind lodash sorting) are modelled as executable functions, and the
recursive walk of `ObjectDiffService` is embedded with an explicit fuel
parameter so that every definition is computable by kernel reduction.
The fuel is only consumed when the walk descends into a nested type
descriptor, so `TypeDescriptor.depth` fuel suffices for every input.
-/

namespace ObjectDiff

/-- JavaScript runtime values as consumed and produced by the diff service:
`undefined`, `null`, booleans, numbers (the program only manipulates
integral numbers, so numbers are embedded as `Int`), strings, arrays and
plain objects (insertion-ordered field lists). -/
inductive Value : Type where
  | undef
  | null
  | bool (b : Bool)
  | num (n : Int)
  | str (s : String)
  | arr (elems : List Value)
  | obj (fields : List (String × Value))

/-- First-match field lookup in an object's field list, the embedding of a
JavaScript property read on a plain object. -/
def lookupField : List (String × Value) → String → Option Value
  | [], _ => none
  | (k, v) :: rest, key => if k == key then some v else lookupField rest key

/-- Property access `o[key]`: `undefined` when the key is absent or the
value is not an object. -/
def objGet : Value → String → Value
  | .obj fs, key => (lookupField fs key).getD .undef
  | _, _ => (.undef)

/-- JavaScript truthiness: `undefined`, `null`, `false`, `0` and the empty
string are falsy; every array and object is truthy. -/
def jsTruthy : Value → Bool
  | .undef => false
  | .null => false
  | .bool b => b
  | .num n => !(n == 0)
  | .str s => !(s == "")
  | .arr _ => true
  | .obj _ => true

/-- Embedding of the JavaScript idiom `(x || '')` used by
`_getPrimaryKeyValue`: falsy values are replaced by the empty string. -/
def jsOrEmpty (v : Value) : Value :=
  if jsTruthy v then v else .str ""

/-- Lodash `isNil`: true exactly on `null` and `undefined`. -/
def isNil : Value → Bool
  | .undef => true
  | .null => true
  | _ => false

mutual

/-- JavaScript string coercion (`String(v)` / `v.toString()`): arrays join
their elements with commas (`Array.prototype.join`), objects render as
`[object Object]`. -/
def valueToString : Value → String
  | .undef => "undefined"
  | .null => "null"
  | .bool b => if b then "true" else "false"
  | .num n => toString n
  | .str s => s
  | .arr l => arrJoin l
  | .obj _ => "[object Object]"

/-- `Array.prototype.join(',')`: `null` and `undefined` elements become
empty strings. -/
def arrJoin : List Value → String
  | [] => ""
  | v :: rest =>
    (match v with
     | .undef => ""
     | .null => ""
     | w => valueToString w)
      ++ (if rest.isEmpty then "" else ",") ++ arrJoin rest

end

/-- Code-unit comparison of two strings as character lists: the strict
lexicographic order of JavaScript string comparison. -/
def charListLt : List Char → List Char → Bool
  | [], [] => false
  | [], _ :: _ => true
  | _ :: _, [] => false
  | c :: cs, d :: ds =>
    if c.toNat < d.toNat then true
    else if d.toNat < c.toNat then false
    else charListLt cs ds

/-- Non-strict lexicographic comparison of two strings as character
lists. -/
def charListLe : List Char → List Char → Bool
  | [], _ => true
  | _ :: _, [] => false
  | c :: cs, d :: ds =>
    if c.toNat < d.toNat then true
    else if d.toNat < c.toNat then false
    else charListLe cs ds

/-- Strict lexicographic string comparison (JavaScript `a < b` on two
strings). -/
def strLtb (a b : String) : Bool := charListLt a.data b.data

/-- Non-strict lexicographic string comparison. -/
def strLeb (a b : String) : Bool := charListLe a.data b.data

/-- ASCII lowercasing of one character (the program's data is ASCII, so
this models `toLowerCase`). -/
def charToLower (c : Char) : Char :=
  if 65 ≤ c.toNat && c.toNat ≤ 90 then Char.ofNat (c.toNat + 32) else c

/-- ASCII lowercasing (`String.prototype.toLowerCase`). -/
def strToLower (s : String) : String := ⟨s.data.map charToLower⟩

/-- ASCII whitespace test for `ToNumber` trimming. -/
def isSpaceChar (c : Char) : Bool :=
  c == ' ' || c == '\t' || c == '\n' || c == '\r'

/-- Leading- and trailing-whitespace removal on a character list. -/
def trimChars (l : List Char) : List Char :=
  ((l.dropWhile isSpaceChar).reverse.dropWhile isSpaceChar).reverse

/-- String-to-number coercion (`ToNumber` on a string): the empty or
all-whitespace string is `0`, an optionally signed decimal integer literal
parses, everything else is NaN (`none`). Non-integral numeric literals do
not occur in this program's data and are mapped to NaN. -/
def parseNumber (s : String) : Option Int :=
  let t := trimChars s.data
  if t.isEmpty then some 0
  else
    let neg : Bool := match t with | '-' :: _ => true | _ => false
    let core := match t with | '-' :: rest => rest | '+' :: rest => rest | _ => t
    if !core.isEmpty && core.all (fun c => 48 ≤ c.toNat && c.toNat ≤ 57) then
      let n : Nat := core.foldl (fun acc c => acc * 10 + (c.toNat - 48)) 0
      some (if neg then -(n : Int) else (n : Int))
    else none

/-- JavaScript `ToPrimitive` with number hint, as exercised by the abstract
relational comparison: arrays and objects are replaced by their string
coercion, primitives are left alone. -/
def toPrimitiveV : Value → Value
  | .arr l => .str (arrJoin l)
  | .obj _ => .str "[object Object]"
  | v => v

/-- JavaScript `ToNumber` on a primitive: `none` models NaN. -/
def toNumberV : Value → Option Int
  | .undef => none
  | .null => some 0
  | .bool b => some (if b then 1 else 0)
  | .num n => some n
  | .str s => parseNumber s
  | .arr l => parseNumber (arrJoin l)
  | .obj _ => none

/-- Numeric comparison step of the abstract relational comparison: any
NaN (`none`) operand makes it false. -/
def numLess : Option Int → Option Int → Bool
  | some x, some y => decide (x < y)
  | _, _ => false

/-- JavaScript abstract relational comparison `a < b`: after `ToPrimitive`,
two strings compare lexicographically, otherwise both sides are coerced to
numbers and any NaN makes the comparison false. -/
def jsLess (a b : Value) : Bool :=
  match toPrimitiveV a, toPrimitiveV b with
  | .str s, .str t => strLtb s t
  | pa, pb => numLess (toNumberV pa) (toNumberV pb)

/-- Shape test used by lodash `compareAscending`. -/
def isUndefV : Value → Bool
  | .undef => true
  | _ => false

/-- Shape test used by lodash `compareAscending`. -/
def isNullV : Value → Bool
  | .null => true
  | _ => false

/-- Lodash `compareAscending`, the comparator behind `sortBy` with the
identity iteratee, specialised to values that are never NaN or symbols:
`undefined` sorts after everything, `null` sorts after every defined
value but before `undefined`, and otherwise the JavaScript relational
comparison decides. -/
def compareAscending (a b : Value) : Int :=
  if isUndefV a && isUndefV b then 0
  else if isNullV a && isNullV b then 0
  else if (!(isNullV b) && jsLess b a) || (isNullV a && !(isUndefV b)) || isUndefV a then 1
  else if (!(isNullV a) && jsLess a b) || (isNullV b && !(isUndefV a)) || isUndefV b then -1
  else 0

/-- Comparator relation for lodash `sortBy` on values. -/
def ascLE (a b : Value) : Prop := compareAscending a b ≤ 0

instance : DecidableRel ascLE :=
  fun a b => show Decidable (compareAscending a b ≤ 0) from inferInstance

/-- Lodash `sortBy` with the identity iteratee on an array of values: a
stable sort by `compareAscending`. -/
def sortValues (l : List Value) : List Value := List.insertionSort ascLE l

/-- Lodash `sortBy` on an array of strings (`compareAscending` on two
strings is exactly the lexicographic order). -/
def sortStrings (l : List String) : List String :=
  List.insertionSort (fun a b : String => strLeb a b = true) l

/-- First-occurrence deduplication, the uniqueness pass inside lodash
`intersection`. -/
def dedupFirst {α : Type} [BEq α] : List α → List α
  | [] => []
  | x :: xs => x :: (dedupFirst xs).filter (fun y => !(y == x))

/-- Lodash `intersection a b`: the first-occurrence-deduplicated elements
of `a` that also occur in `b`, in the order of `a`. -/
def intersectionL {α : Type} [BEq α] (a b : List α) : List α :=
  (dedupFirst a).filter (fun x => b.contains x)

mutual

/-- Lodash `isEqual` deep structural equality: arrays compare by position,
objects compare by key count and per-key values irrespective of field
order, `null` and `undefined` are equal only to themselves. -/
def isEqual : Value → Value → Bool
  | .undef, w => match w with | .undef => true | _ => false
  | .null, w => match w with | .null => true | _ => false
  | .bool a, w => match w with | .bool b => a == b | _ => false
  | .num a, w => match w with | .num b => a == b | _ => false
  | .str a, w => match w with | .str b => a == b | _ => false
  | .arr a, w => match w with | .arr b => isEqualArr a b | _ => false
  | .obj a, w => match w with | .obj b => a.length == b.length && isEqualFields a b | _ => false

/-- Positional deep equality of two arrays. -/
def isEqualArr : List Value → List Value → Bool
  | [], b => b.isEmpty
  | _ :: _, [] => false
  | x :: xs, y :: ys => isEqual x y && isEqualArr xs ys

/-- Every field of the first object matches a field of the second. -/
def isEqualFields : List (String × Value) → List (String × Value) → Bool
  | [], _ => true
  | (k, v) :: rest, b =>
    (match lookupField b k with
     | some w => isEqual v w
     | none => false) && isEqualFields rest b

end

/-- JSON string escaping for the characters that can occur in this
program's data. -/
def jsonEscapeChar (c : Char) : String :=
  if c == '"' then "\\\""
  else if c == '\\' then "\\\\"
  else if c == '\n' then "\\n"
  else if c == '\t' then "\\t"
  else if c == '\r' then "\\r"
  else String.singleton c

/-- Quoted JSON string literal. -/
def jsonQuote (s : String) : String :=
  "\"" ++ String.join (s.data.map jsonEscapeChar) ++ "\""

mutual

/-- `JSON.stringify`: `none` models the `undefined` result on a top-level
`undefined`; inside arrays `undefined` serialises as `null`, and object
fields holding `undefined` are dropped. Field order of objects is the
insertion order, which is what makes this equality key-order sensitive. -/
def jsonStringify : Value → Option String
  | .undef => none
  | .null => some "null"
  | .bool b => some (if b then "true" else "false")
  | .num n => some (toString n)
  | .str s => some (jsonQuote s)
  | .arr l => some ("[" ++ String.intercalate "," (jsonArrItems l) ++ "]")
  | .obj fs => some ("\x7b" ++ String.intercalate "," (jsonObjItems fs) ++ "\x7d")

/-- Serialised array elements (`undefined` and unserialisable entries
become `null`). -/
def jsonArrItems : List Value → List String
  | [] => []
  | v :: rest => ((jsonStringify v).getD "null") :: jsonArrItems rest

/-- Serialised object fields, dropping those whose value serialises to
nothing. -/
def jsonObjItems : List (String × Value) → List String
  | [] => []
  | (k, v) :: rest =>
    match jsonStringify v with
    | none => jsonObjItems rest
    | some sv => (jsonQuote k ++ ":" ++ sv) :: jsonObjItems rest

end

/-- The `type` tag of a `PropertyDescriptor`
(`property-descriptors.ts`): one of the three primitive kinds or
`complex`. -/
inductive PropertyType : Type where
  | boolean
  | number
  | string
  | complex
deriving DecidableEq

/-- The `primaryKey` field of a `TypeDescriptor`: a single key name or an
array of key names (`keyof T | (keyof T)[]`). -/
inductive PrimaryKeySpec : Type where
  | single (key : String)
  | multi (keys : List String)

mutual

/-- `TypeDescriptor` of `property-descriptors.ts`: a diagnostic `name`, an
insertion-ordered `properties` map from property name to
`PropertyDescriptor`, and an optional `primaryKey`. -/
inductive TypeDescriptor : Type where
  | mk (name : String) (properties : List (String × PropertyDescriptor))
      (primaryKey : Option PrimaryKeySpec)

/-- `PropertyDescriptor` of `property-descriptors.ts`: a `type` tag, an
optional nested `descriptor` (present on complex properties), and the
bound `name` (set by `TypeDescriptors.create`, hence optional). -/
inductive PropertyDescriptor : Type where
  | mk (type : PropertyType) (descriptor : Option TypeDescriptor)
      (name : Option String)

end

def TypeDescriptor.name : TypeDescriptor → String
  | .mk n _ _ => n

def TypeDescriptor.properties : TypeDescriptor → List (String × PropertyDescriptor)
  | .mk _ props _ => props

def TypeDescriptor.primaryKey : TypeDescriptor → Option PrimaryKeySpec
  | .mk _ _ pk => pk

def PropertyDescriptor.type : PropertyDescriptor → PropertyType
  | .mk t _ _ => t

def PropertyDescriptor.descriptor : PropertyDescriptor → Option TypeDescriptor
  | .mk _ d _ => d

def PropertyDescriptor.name : PropertyDescriptor → Option String
  | .mk _ _ n => n

/-- First-match lookup in a descriptor's `properties` map, the embedding
of `descriptor.properties[key]`. -/
def lookupProp : List (String × PropertyDescriptor) → String → Option PropertyDescriptor
  | [], _ => none
  | (k, pd) :: rest, key => if k == key then some pd else lookupProp rest key

/-- `ObjectDiffService._toArray` applied to a `primaryKey` field: a falsy
value (absent key, or the empty-string key name) becomes `undefined`, a
single key becomes a one-element array, an array of keys is kept (an
empty array is truthy in JavaScript and is kept as is). -/
def toArray : Option PrimaryKeySpec → Option (List String)
  | none => none
  | some (.single k) => if k == "" then none else some [k]
  | some (.multi ks) => some ks

mutual

/-- The maximal nesting depth of a descriptor, used as fuel for the diff
walk: every descent into a nested descriptor strictly decreases it. -/
def TypeDescriptor.depth : TypeDescriptor → Nat
  | .mk _ props _ => 1 + depthProps props

def depthProps : List (String × PropertyDescriptor) → Nat
  | [] => 0
  | (_, pd) :: rest => max (depthProp pd) (depthProps rest)

def depthProp : PropertyDescriptor → Nat
  | .mk _ none _ => 0
  | .mk _ (some sub) _ => TypeDescriptor.depth sub

end

/-- `TypeDescriptors.create`: binds each property descriptor's `name` to
its key in the `properties` map. -/
def TypeDescriptors.create : TypeDescriptor → TypeDescriptor
  | .mk n props pk =>
    .mk n (props.map (fun p =>
      match p with
      | (key, .mk t od _) => (key, PropertyDescriptor.mk t od (some key)))) pk

/-- `ObjectDiffService._getPrimaryKeyValue`: the canonical key of an array
element, concatenating over the lexicographically sorted primary-key
names the fragment `name:value;` where the value is first replaced by
the empty string if falsy (`item[primaryKey] || ''`), then string-coerced
and lowercased. -/
def getPrimaryKeyValue (item : Value) (primaryKeys : List String) : String :=
  (sortStrings primaryKeys).foldl
    (fun result primaryKey =>
      result ++ primaryKey ++ ":"
        ++ strToLower (valueToString (jsOrEmpty (objGet item primaryKey))) ++ ";")
    ""

/-- `ObjectDiffService._getPrimaryKeyValues`: the sorted canonical keys of
an array. -/
def getPrimaryKeyValues (items : List Value) (primaryKeys : List String) : List String :=
  sortStrings (items.map (fun item => getPrimaryKeyValue item primaryKeys))

/-- Lodash `find` over an array by canonical key. -/
def findByKey (items : List Value) (primaryKeys : List String) (keyValue : String) : Option Value :=
  items.find? (fun item => getPrimaryKeyValue item primaryKeys == keyValue)

/-- Effectful map over a list in the `Except` monad (the JavaScript
`Array.prototype.map` whose callback can throw). -/
def mapMExcept {α β : Type} (f : α → Except String β) : List α → Except String (List β)
  | [] => .ok []
  | x :: xs => do
    let y ← f x
    let ys ← mapMExcept f xs
    .ok (y :: ys)

/-- The `Changes<T>` record of `object-diff-service.ts`: unmatched
elements of each side and the matched pairs
`(primaryKey, from, to)`. -/
structure Changes : Type where
  removed : List Value
  added : List Value
  inBoth : List (String × Value × Value)

/-- `ObjectDiffService._getChanges`: array reconciliation by canonical
primary-key value. For each matched key, lodash `find` yields the
element or `undefined`, and the source's `if (!from || !to) throw` is a
JavaScript truthiness check on that result: it throws both when no
element was found and when the found element itself is falsy (such as
the number `0`). -/
def getChanges (fromArray toArray : List Value) (primaryKeys : List String) :
    Except String Changes := do
  let fromKeyValues := getPrimaryKeyValues fromArray primaryKeys
  let toKeyValues := getPrimaryKeyValues toArray primaryKeys
  let matched := intersectionL fromKeyValues toKeyValues
  let removed := fromArray.filter
    (fun item => !(matched.contains (getPrimaryKeyValue item primaryKeys)))
  let added := toArray.filter
    (fun item => !(matched.contains (getPrimaryKeyValue item primaryKeys)))
  let inBoth ← mapMExcept (fun keyValue =>
    let f := (findByKey fromArray primaryKeys keyValue).getD (.undef)
    let t := (findByKey toArray primaryKeys keyValue).getD (.undef)
    if !(jsTruthy f) || !(jsTruthy t) then
      Except.error "Uh oh...something didn\x27t go right"
    else Except.ok (keyValue, f, t)) matched
  Except.ok ⟨removed, added, inBoth⟩

/-- The in-memory change-result object: an insertion-ordered record. -/
abbrev DiffRecord := List (String × Value)

/-- Property read on a change-result record (`changeResult[key]`). -/
def recordGet (r : DiffRecord) (key : String) : Value :=
  (lookupField r key).getD (.undef)

/-- Property assignment on a change-result record: overwrites in place or
appends a new key (JavaScript object assignment). -/
def recordSet : DiffRecord → String → Value → DiffRecord
  | [], key, v => [(key, v)]
  | (k, w) :: rest, key, v =>
    if k == key then (k, v) :: rest else (k, w) :: recordSet rest key v

/-- Diagnostic message logged when a property descriptor has no bound
name. -/
def nameErrorMsg (descriptor : TypeDescriptor) : String :=
  "Property descriptors need a property name (property: \x27"
    ++ descriptor.name ++ "\x27)."

/-- Diagnostic message logged when a complex property has no nested type
descriptor. -/
def descriptorErrorMsg (descriptor : TypeDescriptor) (propertyName : String) : String :=
  "Property descriptors for complex properties need a type descriptor (property: \x27"
    ++ descriptor.name ++ "." ++ propertyName ++ "\x27)."

/-- Diagnostic message logged when a complex array property has no primary
key. -/
def primaryKeyErrorMsg (descriptor : TypeDescriptor) (propertyName : String) : String :=
  "Property descriptors for complex arrays need a primaryKey (property: \x27"
    ++ descriptor.name ++ "." ++ propertyName ++ "\x27)."

/-- Message of the error thrown on a non-array, non-nil value of a complex
property. -/
def nonArrayErrorMsg (propertyName : String) : String :=
  "Unexpected non-array complex type: \x27" ++ propertyName ++ "\x27"

/-- The state threaded through one property loop: `Sum.inl` is the normal
accumulating state (record so far, log messages emitted so far), `Sum.inr`
records that the loop body executed `return`, aborting the rest of the
enclosing traversal while keeping the record built so far. -/
abbrev StepState := (DiffRecord × List String) ⊕ (DiffRecord × List String)

/-- One iteration of the per-element loop of the snapshot projector:
renders one array element under the nested descriptor and appends the
rendered object and the emitted logs to the accumulators. -/
def snapshotItem
    (recurse : Value → TypeDescriptor → Except String (DiffRecord × List String))
    (propertyTypeDescriptor : TypeDescriptor)
    (acc : List Value × List String) (propertyValueItem : Value) :
    Except String (List Value × List String) := do
  let (itemResult, itemLogs) ← recurse propertyValueItem propertyTypeDescriptor
  pure (acc.1 ++ [Value.obj itemResult], acc.2 ++ itemLogs)

/-- One iteration of the property loop of
`ObjectDiffService._processComplexTypeTransformations` (the snapshot
projector), parameterised by the recursive projection `recurse` applied to
nested array elements. Mirrors the source line by line: a missing bound
name or missing nested descriptor logs an error and aborts the enclosing
loop (`Sum.inr`); a complex array property renders each element and keeps
the sequence only if non-empty; a non-array, non-nil complex value
throws; a primitive property is copied verbatim unless nil. -/
def snapshotStep
    (recurse : Value → TypeDescriptor → Except String (DiffRecord × List String))
    (property : Value) (descriptor : TypeDescriptor)
    (st : StepState) (key : String) : Except String StepState :=
  match st with
  | .inr done => pure (.inr done)
  | .inl (result, logs) =>
    match lookupProp descriptor.properties key with
    | none => pure (.inl (result, logs))
    | some propertyDescriptor =>
      match propertyDescriptor.name with
      | none => pure (.inr (result, logs ++ [nameErrorMsg descriptor]))
      | some propertyDescriptorName =>
        match propertyDescriptor.type with
        | .complex =>
          match propertyDescriptor.descriptor with
          | none =>
            pure (.inr (result,
              logs ++ [descriptorErrorMsg descriptor propertyDescriptorName]))
          | some propertyTypeDescriptor =>
            match objGet property key with
            | .arr propertyValue => do
              let folded ← propertyValue.foldlM
                (snapshotItem recurse propertyTypeDescriptor) ([], logs)
              let (itemResults, logs2) := folded
              if itemResults.isEmpty then
                pure (.inl (result, logs2))
              else
                pure (.inl (recordSet result propertyDescriptorName (.arr itemResults), logs2))
            | v =>
              if isNil v then
                pure (.inl (result, logs))
              else
                Except.error (nonArrayErrorMsg propertyDescriptorName)
        | _ =>
          let propertyValue := objGet property propertyDescriptorName
          if isNil propertyValue then
            pure (.inl (result, logs))
          else
            pure (.inl (recordSet result propertyDescriptorName propertyValue, logs))

/-- `ObjectDiffService._processComplexTypeTransformations` (the snapshot
projector), with fuel consumed on each descent into a nested descriptor.
Returns the rendered record together with the log messages emitted. The
`root` argument is carried as in the source, which never reads it. -/
def processComplexTypeTransformations :
    Nat → DiffRecord → Value → Value → TypeDescriptor →
    Except String (DiffRecord × List String)
  | 0, _, _, _, _ => Except.error "__fuel"
  | fuel + 1, result, root, property, descriptor => do
    let st ← (sortStrings (descriptor.properties.map (fun p => p.1))).foldlM
      (snapshotStep
        (fun v sub => processComplexTypeTransformations fuel [] root v sub)
        property descriptor)
      (.inl (result, []))
    pure (match st with | .inl s => s | .inr s => s)

/-- One iteration of the unmatched-element loop of `_processChanges`:
renders the snapshot of an element present on only one side and appends
it under the given sign marker. -/
def unmatchedEntry
    (snapshot : Value → Value → TypeDescriptor → Except String (DiffRecord × List String))
    (sign : String) (root : Value) (propertyTypeDescriptor : TypeDescriptor)
    (acc : List Value × List String) (item : Value) :
    Except String (List Value × List String) := do
  let (transformedItem, lg) ← snapshot root item propertyTypeDescriptor
  pure (acc.1 ++ [Value.obj [(sign, Value.obj transformedItem)]], acc.2 ++ lg)

/-- One iteration of the matched-pair loop of `_processChanges`: recurse
into the pair, and on a non-empty recursive diff append an entry carrying
the primary-key fields of the from-side element followed by the changed
sub-properties. -/
def inBothEntry
    (recurse : Value → Value → TypeDescriptor → Except String (DiffRecord × List String))
    (primaryKeys : List String) (propertyDescriptorName : String)
    (propertyTypeDescriptor : TypeDescriptor)
    (acc : DiffRecord × List String) (change : String × Value × Value) :
    Except String (DiffRecord × List String) := do
  let (_, changeFrom, changeTo) := change
  let (itemChangeResult, lg) ← recurse changeFrom changeTo propertyTypeDescriptor
  if itemChangeResult.length == 0 then
    pure (acc.1, acc.2 ++ lg)
  else
    let base := primaryKeys.foldl
      (fun r pk => recordSet r pk (objGet changeFrom pk)) []
    let itemChangeResultFinal := itemChangeResult.foldl
      (fun r kv => recordSet r kv.1 kv.2) base
    let cr1 :=
      if jsTruthy (recordGet acc.1 propertyDescriptorName) then acc.1
      else recordSet acc.1 propertyDescriptorName (.arr [])
    match recordGet cr1 propertyDescriptorName with
    | .arr entries =>
      pure (recordSet cr1 propertyDescriptorName
        (.arr (entries ++ [Value.obj itemChangeResultFinal])), acc.2 ++ lg)
    | _ => pure (cr1, acc.2 ++ lg)

/-- One iteration of the property loop of
`ObjectDiffService._processChanges`, parameterised by the recursive walk
`recurse` (applied to matched pairs) and the snapshot projection
`snapshot` (applied to unmatched elements). Mirrors the source line by
line. Configuration faults (missing bound name, missing nested descriptor
of a complex property, missing primary key of a complex property) log a
diagnostic and abort the enclosing loop (`Sum.inr`). A complex property
with two array values is reconciled by canonical key: unmatched elements
produce removed/added snapshot entries (only if the property's slot in
the record is still falsy), and each matched pair is recursed on, a
non-empty recursive diff producing an entry carrying the primary-key
fields of the from-side element followed by the changed sub-properties.
A complex property whose values are not both arrays throws unless both
are nil. A primitive property with two array values is diffed as a set
under `JSON.stringify` equality with sorted removed/added markers, and
any other primitive property is a scalar compared with lodash
`isEqual`. -/
def processChangesStep
    (recurse : Value → Value → TypeDescriptor → Except String (DiffRecord × List String))
    (snapshot : Value → Value → TypeDescriptor → Except String (DiffRecord × List String))
    (fromRoot toRoot fromV toV : Value) (descriptor : TypeDescriptor)
    (st : StepState) (key : String) : Except String StepState :=
  match st with
  | .inr done => pure (.inr done)
  | .inl (changeResult, logs) =>
    match lookupProp descriptor.properties key with
    | none => pure (.inl (changeResult, logs))
    | some propertyDescriptor =>
      let primaryKeysOpt := toArray
        (match propertyDescriptor.descriptor with
         | some d => d.primaryKey
         | none => none)
      let fromPropertyValue := objGet fromV key
      let toPropertyValue := objGet toV key
      match propertyDescriptor.name with
      | none => pure (.inr (changeResult, logs ++ [nameErrorMsg descriptor]))
      | some propertyDescriptorName =>
        match propertyDescriptor.type with
        | .complex =>
          match propertyDescriptor.descriptor with
          | none =>
            pure (.inr (changeResult,
              logs ++ [descriptorErrorMsg descriptor propertyDescriptorName]))
          | some propertyTypeDescriptor =>
            match primaryKeysOpt with
            | none =>
              pure (.inr (changeResult,
                logs ++ [primaryKeyErrorMsg descriptor propertyDescriptorName]))
            | some primaryKeys =>
              match fromPropertyValue, toPropertyValue with
              | .arr fromArr, .arr toArr => do
                let changes ← getChanges fromArr toArr primaryKeys
                let unmatchedDone ←
                  if (!changes.removed.isEmpty || !changes.added.isEmpty)
                      && !(jsTruthy (recordGet changeResult propertyDescriptorName)) then do
                    let rem ← changes.removed.foldlM
                      (unmatchedEntry snapshot "-" fromRoot propertyTypeDescriptor) ([], logs)
                    let remAdd ← changes.added.foldlM
                      (unmatchedEntry snapshot "+" toRoot propertyTypeDescriptor) rem
                    pure (recordSet changeResult propertyDescriptorName (.arr remAdd.1), remAdd.2)
                  else
                    pure (changeResult, logs)
                let matchedDone ← changes.inBoth.foldlM
                  (inBothEntry recurse primaryKeys propertyDescriptorName propertyTypeDescriptor)
                  unmatchedDone
                pure (.inl matchedDone)
              | fv, tv =>
                if !(isNil fv) || !(isNil tv) then
                  Except.error (nonArrayErrorMsg propertyDescriptorName)
                else
                  pure (.inl (changeResult, logs))
        | _ =>
          let fromPV := objGet fromV propertyDescriptorName
          let toPV := objGet toV propertyDescriptorName
          match fromPV, toPV with
          | .arr fromArr, .arr toArr =>
            let matched := intersectionL (fromArr.map jsonStringify) (toArr.map jsonStringify)
            let removedItems := fromArr.filter
              (fun item => !(matched.contains (jsonStringify item)))
            let addedItems := toArr.filter
              (fun item => !(matched.contains (jsonStringify item)))
            if !removedItems.isEmpty || !addedItems.isEmpty then
              let entries :=
                (if !removedItems.isEmpty then
                    [Value.obj [("-", Value.arr (sortValues removedItems))]]
                  else [])
                ++ (if !addedItems.isEmpty then
                    [Value.obj [("+", Value.arr (sortValues addedItems))]]
                  else [])
              pure (.inl (recordSet changeResult propertyDescriptorName (.arr entries), logs))
            else
              pure (.inl (changeResult, logs))
          | fv, tv =>
            if isEqual fv tv then
              pure (.inl (changeResult, logs))
            else
              pure (.inl (recordSet changeResult propertyDescriptorName
                (Value.obj [("-", fv), ("+", tv)]), logs))

/-- `ObjectDiffService._processChanges`: the recursive property walk, with
fuel consumed on each descent into a nested descriptor. Returns the
accumulated change record and the log messages emitted. -/
def processChanges :
    Nat → DiffRecord → Value → Value → Value → Value → TypeDescriptor →
    Except String (DiffRecord × List String)
  | 0, _, _, _, _, _, _ => Except.error "__fuel"
  | fuel + 1, changeResult, fromRoot, toRoot, fromV, toV, descriptor => do
    let st ← (sortStrings (descriptor.properties.map (fun p => p.1))).foldlM
      (processChangesStep
        (fun f t sub => processChanges fuel [] fromRoot toRoot f t sub)
        (fun root v sub => processComplexTypeTransformations fuel [] root v sub)
        fromRoot toRoot fromV toV descriptor)
      (.inl (changeResult, []))
    pure (match st with | .inl s => s | .inr s => s)

/-- `ObjectDiffService.diff`: runs the walk on a fresh change result with
the given root values, with enough fuel for the descriptor's nesting
depth. Returns the change record together with every message the service
logged through its logger. -/
def diff (fromV toV : Value) (descriptor : TypeDescriptor) :
    Except String (DiffRecord × List String) :=
  processChanges descriptor.depth [] fromV toV fromV toV descriptor

/-! The example schema of `car-type-descriptor-registry.ts` and the sample
data of the demo driver (`ObjectDiffExample.diff`), used by the
motivating-example scenario. -/

/-- The `AutomobileFeature` descriptor of the registry. -/
def automobileFeature : TypeDescriptor :=
  TypeDescriptors.create (.mk "AutomobileFeature"
    [("id", .mk .string none none),
     ("name", .mk .string none none),
     ("optional", .mk .boolean none none),
     ("cost", .mk .number none none),
     ("tags", .mk .string none none)]
    (some (.single "id")))

/-- The `Automobile` descriptor of the registry. -/
def automobile : TypeDescriptor :=
  TypeDescriptors.create (.mk "Automobile"
    [("id", .mk .string none none),
     ("make", .mk .string none none),
     ("model", .mk .string none none),
     ("year", .mk .number none none),
     ("msrp", .mk .number none none),
     ("features", .mk .complex (some automobileFeature) none),
     ("salePrice", .mk .number none none)]
    (some (.single "id")))

/-- The `AutomobileCollection` descriptor of the registry. -/
def automobileCollection : TypeDescriptor :=
  TypeDescriptors.create (.mk "AutomobileCollection"
    [("cars", .mk .complex (some automobile) none),
     ("trucks", .mk .complex (some automobile) none)]
    none)

/-- The shared `features` array of the four sample automobiles. -/
def sampleFeatures : Value :=
  .arr [.obj
    [("id", .str "feature_1"),
     ("name", .str "Power Windows"),
     ("optional", .bool true),
     ("cost", .num 2000),
     ("tags", .arr [.str "tag_1"])]]

/-- The `addedCar` sample value. -/
def addedCar : Value :=
  .obj [("id", .str "added_car"), ("make", .str "ford"), ("model", .str "fiesta"),
        ("year", .num 2022), ("msrp", .num 15000), ("features", sampleFeatures)]

/-- The `removedCar` sample value. -/
def removedCar : Value :=
  .obj [("id", .str "removed_car"), ("make", .str "honda"), ("model", .str "civic"),
        ("year", .num 2022), ("msrp", .num 15000), ("features", sampleFeatures)]

/-- The `modifiedCar` sample value (the `from` version). -/
def modifiedCar : Value :=
  .obj [("id", .str "modified_car"), ("make", .str "toyota"), ("model", .str "corolla"),
        ("year", .num 2022), ("msrp", .num 15000), ("features", sampleFeatures)]

/-- The spread `{...modifiedCar, msrp: 16000, salePrice: 14000}` (the `to`
version of the modified car): the spread keeps the original field order,
updates `msrp` in place and appends `salePrice`. -/
def modifiedCarTo : Value :=
  .obj [("id", .str "modified_car"), ("make", .str "toyota"), ("model", .str "corolla"),
        ("year", .num 2022), ("msrp", .num 16000), ("features", sampleFeatures),
        ("salePrice", .num 14000)]

/-- The `truck` sample value. -/
def sampleTruck : Value :=
  .obj [("id", .str "truck_1"), ("make", .str "toyota"), ("model", .str "tacoma"),
        ("year", .num 2022), ("msrp", .num 15000), ("features", sampleFeatures)]

/-- The `from` collection of the demo driver. -/
def exampleFrom : Value :=
  .obj [("cars", .arr [removedCar, modifiedCar]), ("trucks", .arr [sampleTruck])]

/-- The `to` collection of the demo driver. -/
def exampleTo : Value :=
  .obj [("cars", .arr [addedCar, modifiedCarTo]), ("trucks", .arr [])]

/-! Well-formedness predicates used as hypotheses of the general
theorems. -/

/-- Key lists of JavaScript objects have no duplicates. -/
def nodupKeys : List String → Bool
  | [] => true
  | k :: rest => !(rest.contains k) && nodupKeys rest

mutual

/-- A value is JavaScript-representable when every object in it has
pairwise-distinct field names (a plain JavaScript object cannot hold the
same key twice). -/
def wfValue : Value → Bool
  | .undef => true
  | .null => true
  | .bool _ => true
  | .num _ => true
  | .str _ => true
  | .arr l => wfValueList l
  | .obj fs => nodupKeys (fs.map (fun p => p.1)) && wfValueFields fs

def wfValueList : List Value → Bool
  | [] => true
  | v :: vs => wfValue v && wfValueList vs

def wfValueFields : List (String × Value) → Bool
  | [] => true
  | (_, v) :: rest => wfValue v && wfValueFields rest

end

/-- Structural compatibility of a value with a descriptor (the
precondition of `diff` in the spec): wherever a fully configured complex
property (bound name and nested descriptor present) is declared, the
value's field is an array whose elements are records (objects) that are
recursively compatible with the nested descriptor, or nil. Requiring the
elements to be records matches the spec's model of a complex relation as
an array of described objects; in particular every element is truthy, so
the reconciler's `!from || !to` check on a found element never fires.
The fuel mirrors the fuel of the walk: `compatF fuel v d = true` supplies
exactly the compatibility facts needed by a walk run with the same
fuel. -/
def compatF : Nat → Value → TypeDescriptor → Bool
  | 0, _, _ => false
  | fuel + 1, v, d =>
    d.properties.all (fun p =>
      match p.2 with
      | .mk .complex (some sub) (some _) =>
        match objGet v p.1 with
        | .arr items => items.all (fun item =>
            match item with
            | .obj _ => compatF fuel item sub
            | _ => false)
        | .undef => true
        | .null => true
        | _ => false
      | _ => true)

mutual

/-- A descriptor produced by `TypeDescriptors.create` from a total,
duplicate-free property map: every property's bound name equals its key,
every complex property carries a nested descriptor, and nested
descriptors are recursively well-formed. -/
def wfDescriptor : TypeDescriptor → Bool
  | .mk _ props _ => nodupKeys (props.map (fun p => p.1)) && wfProps props

def wfProps : List (String × PropertyDescriptor) → Bool
  | [] => true
  | (key, pd) :: rest => wfProp key pd && wfProps rest

def wfProp : String → PropertyDescriptor → Bool
  | key, .mk t od onm =>
    (onm == some key) &&
      (match t, od with
       | .complex, some sub => wfDescriptor sub
       | .complex, none => false
       | _, _ => true)

end

/-- A descriptor whose properties are all of primitive kind. -/
def primitiveOnly (d : TypeDescriptor) : Bool :=
  d.properties.all (fun p =>
    match p.2.type with
    | .complex => false
    | _ => true)

/-- The canonical-key formula exactly as the claim words it (for
comparison with `getPrimaryKeyValue`): for each lexicographically sorted
primary-key name, the name, a colon, the element's value for that name
string-coerced and lowercased, and a semicolon — with no falsy-value
normalization. -/
def claimedPrimaryKeyValue (item : Value) (primaryKeys : List String) : String :=
  (sortStrings primaryKeys).foldl
    (fun result primaryKey =>
      result ++ primaryKey ++ ":"
        ++ strToLower (valueToString (objGet item primaryKey)) ++ ";")
    ""

/-- The snapshot the projector renders for the shared `features` array
(fields in sorted key order, nothing omitted since every feature field is
non-nil). -/
def featuresSnapshot : Value :=
  .arr [.obj
    [("cost", .num 2000), ("id", .str "feature_1"), ("name", .str "Power Windows"),
     ("optional", .bool true), ("tags", .arr [.str "tag_1"])]]

/-- C1. For the motivating example the diff contains exactly: under
`cars`, a removed full snapshot of `removed_car`, an added full snapshot
of `added_car`, and an entry keyed by `modified_car`'s id showing
`msrp` with removed 15000 / added 16000 and `salePrice` with added
14000 and no removed side — reading the removed side of the `salePrice`
marker yields `undefined` (the field holds the JavaScript `undefined`
value, so it does not exist as far as any read or serialisation is
concerned, and it is dropped by `JSON.stringify`); under `trucks`, a
removed full snapshot of `truck_1`; and nothing else, with no log
output. -/
theorem claim_C1_motivating_example_scenario :
    diff exampleFrom exampleTo automobileCollection =
      .ok
        ([("cars", .arr
            [.obj [("-", .obj
              [("features", featuresSnapshot), ("id", .str "removed_car"),
               ("make", .str "honda"), ("model", .str "civic"),
               ("msrp", .num 15000), ("year", .num 2022)])],
             .obj [("+", .obj
              [("features", featuresSnapshot), ("id", .str "added_car"),
               ("make", .str "ford"), ("model", .str "fiesta"),
               ("msrp", .num 15000), ("year", .num 2022)])],
             .obj [("id", .str "modified_car"),
                   ("msrp", .obj [("-", .num 15000), ("+", .num 16000)]),
                   ("salePrice", .obj [("-", .undef), ("+", .num 14000)])]]),
          ("trucks", .arr
            [.obj [("-", .obj
              [("features", featuresSnapshot), ("id", .str "truck_1"),
               ("make", .str "toyota"), ("model", .str "tacoma"),
               ("msrp", .num 15000), ("year", .num 2022)])]])],
         [])
    ∧ objGet (.obj [("-", .undef), ("+", .num 14000)]) "-" = .undef
    ∧ jsonStringify (.obj [("-", .undef), ("+", .num 14000)])
        = some "\x7b\"+\":14000\x7d" :=
  ⟨rfl, rfl, rfl⟩

/-! Basic lemmas about the embedded lodash list helpers. -/

theorem contains_iff_mem {α : Type} [BEq α] [LawfulBEq α] {l : List α} {x : α} :
    l.contains x = true ↔ x ∈ l := by
  induction l with
  | nil => simp
  | cons y ys ih => simp [List.contains, List.elem_cons]

theorem mem_dedupFirst {α : Type} [BEq α] [LawfulBEq α] {l : List α} {x : α} :
    x ∈ dedupFirst l ↔ x ∈ l := by
  induction l with
  | nil => simp [dedupFirst]
  | cons y ys ih =>
    simp only [dedupFirst, List.mem_cons, List.mem_filter]
    constructor
    · rintro (rfl | ⟨hx, _⟩)
      · exact Or.inl rfl
      · exact Or.inr (ih.mp hx)
    · rintro (rfl | hx)
      · exact Or.inl rfl
      · by_cases hxy : x = y
        · exact Or.inl hxy
        · exact Or.inr ⟨ih.mpr hx, by simp [hxy]⟩

theorem mem_intersectionL {α : Type} [BEq α] [LawfulBEq α] {a b : List α} {x : α} :
    x ∈ intersectionL a b ↔ x ∈ a ∧ x ∈ b := by
  simp only [intersectionL, List.mem_filter, mem_dedupFirst, contains_iff_mem]

theorem contains_eq_false_iff {α : Type} [BEq α] [LawfulBEq α] {l : List α} {x : α} :
    l.contains x = false ↔ x ∉ l := by
  rw [← Bool.not_eq_true, not_iff_not]
  exact contains_iff_mem

theorem contains_intersectionL {α : Type} [BEq α] [LawfulBEq α] {a b : List α} {x : α} :
    (intersectionL a b).contains x = (a.contains x && b.contains x) := by
  by_cases ha : x ∈ a
  · by_cases hb : x ∈ b
    · rw [contains_iff_mem.mpr (mem_intersectionL.mpr ⟨ha, hb⟩),
        contains_iff_mem.mpr ha, contains_iff_mem.mpr hb]
      rfl
    · rw [contains_eq_false_iff.mpr (fun hm => hb (mem_intersectionL.mp hm).2),
        contains_iff_mem.mpr ha, contains_eq_false_iff.mpr hb]
      rfl
  · rw [contains_eq_false_iff.mpr (fun hm => ha (mem_intersectionL.mp hm).1),
      contains_eq_false_iff.mpr ha]
    rfl

theorem sortStrings_perm (l : List String) : List.Perm (sortStrings l) l :=
  List.perm_insertionSort _ l

theorem mem_sortStrings {l : List String} {x : String} :
    x ∈ sortStrings l ↔ x ∈ l :=
  (sortStrings_perm l).mem_iff

theorem sortValues_perm (l : List Value) : List.Perm (sortValues l) l :=
  List.perm_insertionSort _ l

theorem lookupField_mem {fs : List (String × Value)} {k : String} {v : Value}
    (h : lookupField fs k = some v) : (k, v) ∈ fs := by
  induction fs with
  | nil => simp [lookupField] at h
  | cons p rest ih =>
    obtain ⟨k2, w⟩ := p
    by_cases hk : (k2 == k) = true
    · have hkk : k2 = k := by simpa using hk
      subst hkk
      simp [lookupField] at h
      subst h
      exact List.mem_cons_self _ _
    · simp [lookupField, hk] at h
      exact List.mem_cons_of_mem _ (ih h)

theorem nodupKeys_iff {l : List String} : nodupKeys l = true ↔ l.Nodup := by
  induction l with
  | nil => simp [nodupKeys]
  | cons k rest ih =>
    simp only [nodupKeys, Bool.and_eq_true, Bool.not_eq_true', List.nodup_cons, ih,
      contains_eq_false_iff]

theorem lookupField_self_of_nodup {fs : List (String × Value)} {k : String} {v : Value}
    (hn : nodupKeys (fs.map (fun p => p.1)) = true) (h : (k, v) ∈ fs) :
    lookupField fs k = some v := by
  induction fs with
  | nil => simp at h
  | cons p rest ih =>
    obtain ⟨k2, w⟩ := p
    simp only [List.map_cons, nodupKeys, Bool.and_eq_true, Bool.not_eq_true'] at hn
    rcases List.mem_cons.mp h with heq | hmem
    · cases heq
      simp [lookupField]
    · have hk2 : (k2 == k) = false := by
        rw [beq_eq_false_iff_ne]
        intro hkk
        subst hkk
        have hmap : k2 ∈ rest.map (fun p => p.1) := List.mem_map.mpr ⟨(k2, v), hmem, rfl⟩
        rw [contains_eq_false_iff] at hn
        exact hn.1 hmap
      simp [lookupField, hk2]
      exact ih hn.2 hmem

theorem lookupProp_mem {props : List (String × PropertyDescriptor)} {k : String}
    {pd : PropertyDescriptor} (h : lookupProp props k = some pd) : (k, pd) ∈ props := by
  induction props with
  | nil => simp [lookupProp] at h
  | cons p rest ih =>
    obtain ⟨k2, w⟩ := p
    by_cases hk : (k2 == k) = true
    · have hkk : k2 = k := by simpa using hk
      subst hkk
      simp [lookupProp] at h
      subst h
      exact List.mem_cons_self _ _
    · simp [lookupProp, hk] at h
      exact List.mem_cons_of_mem _ (ih h)

theorem exceptBind_ok {α β : Type} (a : α) (f : α → Except String β) :
    (Except.ok a >>= f : Except String β) = f a := rfl

theorem exceptMap_ok {α β : Type} (g : α → β) (a : α) :
    (g <$> (Except.ok a : Except String α) : Except String β) = .ok (g a) := rfl

theorem mapMExcept_ok {α β : Type} {f : α → Except String β} {g : α → β}
    {l : List α} (h : ∀ x ∈ l, f x = .ok (g x)) :
    mapMExcept f l = .ok (l.map g) := by
  induction l with
  | nil => rfl
  | cons y ys ih =>
    have hy := h y (List.mem_cons_self y ys)
    have hys := ih (fun x hx => h x (List.mem_cons_of_mem y hx))
    simp [mapMExcept, hy, hys]
    rfl

/-! Well-formedness extraction lemmas. -/

theorem wfValueFields_mem {fs : List (String × Value)} {k : String} {v : Value}
    (hwf : wfValueFields fs = true) (h : (k, v) ∈ fs) : wfValue v = true := by
  induction fs with
  | nil => simp at h
  | cons p rest ih =>
    obtain ⟨k2, w⟩ := p
    simp only [wfValueFields, Bool.and_eq_true] at hwf
    rcases List.mem_cons.mp h with heq | hmem
    · cases heq; exact hwf.1
    · exact ih hwf.2 hmem

theorem wfValueList_mem {l : List Value} {e : Value}
    (hwf : wfValueList l = true) (h : e ∈ l) : wfValue e = true := by
  induction l with
  | nil => simp at h
  | cons v vs ih =>
    simp only [wfValueList, Bool.and_eq_true] at hwf
    rcases List.mem_cons.mp h with heq | hmem
    · cases heq; exact hwf.1
    · exact ih hwf.2 hmem

theorem wfValue_objGet {v : Value} (k : String) (hwf : wfValue v = true) :
    wfValue (objGet v k) = true := by
  cases v with
  | obj fs =>
    simp only [wfValue, Bool.and_eq_true] at hwf
    simp only [objGet]
    cases hlk : lookupField fs k with
    | none => rfl
    | some w => exact wfValueFields_mem hwf.2 (lookupField_mem hlk)
  | undef => rfl
  | null => rfl
  | bool b => rfl
  | num n => rfl
  | str s => rfl
  | arr l => rfl

theorem wfValue_arr_elem {l : List Value} {e : Value}
    (hwf : wfValue (.arr l) = true) (h : e ∈ l) : wfValue e = true :=
  wfValueList_mem (by simpa [wfValue] using hwf) h

/-! Reflexivity and symmetry of the embedded lodash `isEqual` on
JavaScript-representable values. -/

theorem isEqualFields_intro : ∀ (fs b : List (String × Value)),
    (∀ k v, (k, v) ∈ fs → ∃ w, lookupField b k = some w ∧ isEqual v w = true) →
    isEqualFields fs b = true
  | [], _, _ => rfl
  | (k, v) :: rest, b, hlk => by
    simp only [isEqualFields, Bool.and_eq_true]
    obtain ⟨w, hw, he⟩ := hlk k v (List.mem_cons_self _ _)
    rw [hw]
    exact ⟨he, isEqualFields_intro rest b
      (fun k2 v2 hm => hlk k2 v2 (List.mem_cons_of_mem _ hm))⟩

mutual

theorem isEqual_refl : ∀ v : Value, wfValue v = true → isEqual v v = true
  | .undef, _ => rfl
  | .null, _ => rfl
  | .bool b, _ => by simp [isEqual]
  | .num n, _ => by simp [isEqual]
  | .str s, _ => by simp [isEqual]
  | .arr l, h => by
    simp only [isEqual]
    exact isEqualArr_refl l (by simpa [wfValue] using h)
  | .obj fs, h => by
    simp only [isEqual, Bool.and_eq_true, beq_iff_eq]
    have h2 : nodupKeys (fs.map (fun p => p.1)) = true ∧ wfValueFields fs = true := by
      simpa [wfValue, Bool.and_eq_true] using h
    refine ⟨by simp, isEqualFields_intro fs fs (fun k v hm => ?_)⟩
    exact ⟨v, lookupField_self_of_nodup h2.1 hm, isEqual_refl v (wfValueFields_mem h2.2 hm)⟩
termination_by v => sizeOf v
decreasing_by
  · simp
  · have h1 := List.sizeOf_lt_of_mem hm
    simp at h1 ⊢
    omega

theorem isEqualArr_refl : ∀ l : List Value, wfValueList l = true → isEqualArr l l = true
  | [], _ => rfl
  | v :: vs, h => by
    simp only [isEqualArr, Bool.and_eq_true]
    have h2 : wfValue v = true ∧ wfValueList vs = true := by
      simpa [wfValueList, Bool.and_eq_true] using h
    exact ⟨isEqual_refl v h2.1, isEqualArr_refl vs h2.2⟩
termination_by l => sizeOf l
decreasing_by
  all_goals
    simp
    try omega

end

theorem isEqualFields_forall : ∀ {fs b : List (String × Value)},
    isEqualFields fs b = true →
    ∀ k v, (k, v) ∈ fs → ∃ w, lookupField b k = some w ∧ isEqual v w = true := by
  intro fs
  induction fs with
  | nil => intro b _ k v hm; simp at hm
  | cons p rest ih =>
    obtain ⟨k2, v2⟩ := p
    intro b h k v hm
    simp only [isEqualFields, Bool.and_eq_true] at h
    rcases List.mem_cons.mp hm with heq | hmem
    · injection heq with h1 h2
      subst h1
      subst h2
      cases hlk : lookupField b k with
      | none => rw [hlk] at h; simp at h
      | some w =>
        rw [hlk] at h
        exact ⟨w, rfl, h.1⟩
    · exact ih h.2 k v hmem

theorem isEqualArr_symm_on : ∀ (a b : List Value),
    (∀ x y, x ∈ a → y ∈ b → isEqual x y = true → isEqual y x = true) →
    isEqualArr a b = true → isEqualArr b a = true
  | [], b, _, h => by
    cases b with
    | nil => rfl
    | cons y ys => simp [isEqualArr] at h
  | x :: xs, b, hrec, h => by
    cases b with
    | nil => simp [isEqualArr] at h
    | cons y ys =>
      simp only [isEqualArr, Bool.and_eq_true] at h ⊢
      refine ⟨hrec x y (List.mem_cons_self _ _) (List.mem_cons_self _ _) h.1, ?_⟩
      exact isEqualArr_symm_on xs ys
        (fun u v hu hv => hrec u v (List.mem_cons_of_mem _ hu) (List.mem_cons_of_mem _ hv))
        h.2

theorem isEqual_symm_imp : ∀ x y : Value, wfValue x = true → wfValue y = true →
    isEqual x y = true → isEqual y x = true
  | .undef, y, _, _, h => by cases y <;> simp_all [isEqual]
  | .null, y, _, _, h => by cases y <;> simp_all [isEqual]
  | .bool a, y, _, _, h => by cases y <;> simp_all [isEqual]
  | .num a, y, _, _, h => by cases y <;> simp_all [isEqual]
  | .str a, y, _, _, h => by cases y <;> simp_all [isEqual]
  | .arr a, y, hwx, hwy, h => by
    cases y with
    | arr b =>
      simp only [isEqual] at h ⊢
      refine isEqualArr_symm_on a b (fun u v hu hv hesub => ?_) h
      exact isEqual_symm_imp u v (wfValue_arr_elem hwx hu) (wfValue_arr_elem hwy hv) hesub
    | undef => simp [isEqual] at h
    | null => simp [isEqual] at h
    | bool b => simp [isEqual] at h
    | num n => simp [isEqual] at h
    | str s => simp [isEqual] at h
    | obj fs => simp [isEqual] at h
  | .obj a, y, hwx, hwy, h => by
    cases y with
    | obj b =>
      simp only [isEqual, Bool.and_eq_true, beq_iff_eq] at h ⊢
      obtain ⟨hlen, hfields⟩ := h
      have hwa : nodupKeys (a.map (fun p => p.1)) = true ∧ wfValueFields a = true := by
        simpa [wfValue, Bool.and_eq_true] using hwx
      have hwb : nodupKeys (b.map (fun p => p.1)) = true ∧ wfValueFields b = true := by
        simpa [wfValue, Bool.and_eq_true] using hwy
      have hforall := isEqualFields_forall hfields
      have hsub : (a.map (fun p => p.1)) ⊆ (b.map (fun p => p.1)) := by
        intro k hk
        obtain ⟨⟨k1, v⟩, hmem, hk1⟩ := List.mem_map.mp hk
        cases hk1
        obtain ⟨w, hw, _⟩ := hforall k1 v hmem
        exact List.mem_map.mpr ⟨(k1, w), lookupField_mem hw, rfl⟩
      have hperm : List.Perm (a.map (fun p => p.1)) (b.map (fun p => p.1)) := by
        refine ((nodupKeys_iff.mp hwa.1).subperm hsub).perm_of_length_le ?_
        simp [hlen]
      refine ⟨hlen.symm, isEqualFields_intro b a (fun k w hmw => ?_)⟩
      have hkb : k ∈ a.map (fun p => p.1) := by
        rw [hperm.mem_iff]
        exact List.mem_map.mpr ⟨(k, w), hmw, rfl⟩
      obtain ⟨⟨k1, v⟩, hmema, hk1⟩ := List.mem_map.mp hkb
      cases hk1
      obtain ⟨w2, hw2, hvw2⟩ := hforall k1 v hmema
      have hw2w : w2 = w := by
        have := lookupField_self_of_nodup hwb.1 hmw
        rw [this] at hw2
        exact (Option.some.injEq .. ▸ hw2).symm
      subst hw2w
      refine ⟨v, lookupField_self_of_nodup hwa.1 hmema, ?_⟩
      exact isEqual_symm_imp v w2 (wfValueFields_mem hwa.2 hmema) (wfValueFields_mem hwb.2 hmw) hvw2
    | undef => simp [isEqual] at h
    | null => simp [isEqual] at h
    | bool b => simp [isEqual] at h
    | num n => simp [isEqual] at h
    | str s => simp [isEqual] at h
    | arr l => simp [isEqual] at h
termination_by x => sizeOf x
decreasing_by
  · have h1 := List.sizeOf_lt_of_mem hu
    simp
    omega
  · have h1 := List.sizeOf_lt_of_mem hmema
    simp at h1 ⊢
    omega

/-- Symmetry of `isEqual` on JavaScript-representable values, as a Bool
equation. -/
theorem isEqual_symm (x y : Value) (hx : wfValue x = true) (hy : wfValue y = true) :
    isEqual x y = isEqual y x := by
  cases hxy : isEqual x y with
  | true => exact (isEqual_symm_imp x y hx hy hxy).symm
  | false =>
    cases hyx : isEqual y x with
    | true => exact absurd (isEqual_symm_imp y x hy hx hyx) (by simp [hxy])
    | false => rfl

/-! Frame lemmas for the change-result record. -/

theorem recordGet_recordSet_self (r : DiffRecord) (k : String) (v : Value) :
    recordGet (recordSet r k v) k = v := by
  induction r with
  | nil => simp [recordSet, recordGet, lookupField]
  | cons p rest ih =>
    obtain ⟨k2, w⟩ := p
    by_cases hk : (k2 == k) = true
    · simp [recordSet, hk, recordGet, lookupField]
    · simp only [recordSet, hk]
      simpa [recordGet, lookupField, hk] using ih

theorem recordGet_recordSet_ne (r : DiffRecord) {k k2 : String} (v : Value)
    (h : k2 ≠ k) : recordGet (recordSet r k v) k2 = recordGet r k2 := by
  have hne : (k == k2) = false := beq_eq_false_iff_ne.mpr (fun he => h he.symm)
  induction r with
  | nil => simp [recordSet, recordGet, lookupField, hne]
  | cons p rest ih =>
    obtain ⟨k3, w⟩ := p
    by_cases hk : (k3 == k) = true
    · have hkk : k3 = k := by simpa using hk
      subst hkk
      simp [recordSet, recordGet, lookupField, hne]
    · simp only [recordSet, hk]
      by_cases hk2 : (k3 == k2) = true
      · simp [recordGet, lookupField, hk2]
      · simpa [recordGet, lookupField, hk2] using ih

theorem map_fst_recordSet_congr : ∀ {r1 r2 : DiffRecord},
    r1.map (fun p => p.1) = r2.map (fun p => p.1) → ∀ (k : String) (v1 v2 : Value),
    (recordSet r1 k v1).map (fun p => p.1) = (recordSet r2 k v2).map (fun p => p.1)
  | [], r2, h, k, v1, v2 => by
    have : r2 = [] := by
      cases r2 with
      | nil => rfl
      | cons q qs => simp at h
    subst this
    simp [recordSet]
  | (k2, w) :: rest, r2, h, k, v1, v2 => by
    cases r2 with
    | nil => simp at h
    | cons q qs =>
      obtain ⟨k3, w3⟩ := q
      simp only [List.map_cons, List.cons.injEq] at h
      obtain ⟨hk23, hrest⟩ := h
      subst hk23
      by_cases hk : (k2 == k) = true
      · simp [recordSet, hk, hrest]
      · simp only [recordSet, if_neg hk, List.map_cons, List.cons.injEq, eq_self_iff_true, true_and]
        exact map_fst_recordSet_congr hrest k v1 v2

/-! Pass-through behaviour of the two step functions on an
already-returned state, and generic loop lemmas. -/

theorem snapshotStep_inr (recurse : Value → TypeDescriptor → Except String (DiffRecord × List String))
    (property : Value) (d : TypeDescriptor) (s : DiffRecord × List String) (k : String) :
    snapshotStep recurse property d (.inr s) k = .ok (.inr s) := rfl

theorem processChangesStep_inr
    (recurse snapshot : Value → Value → TypeDescriptor → Except String (DiffRecord × List String))
    (fr tr fv tv : Value) (d : TypeDescriptor) (s : DiffRecord × List String) (k : String) :
    processChangesStep recurse snapshot fr tr fv tv d (.inr s) k = .ok (.inr s) := rfl

theorem foldlM_inr {step : StepState → String → Except String StepState}
    (hpass : ∀ s k, step (.inr s) k = .ok (.inr s)) (keys : List String)
    (s : DiffRecord × List String) :
    keys.foldlM step (.inr s) = .ok (.inr s) := by
  induction keys with
  | nil => rfl
  | cons k ks ih =>
    simp only [List.foldlM, hpass]
    exact ih

/-! Characterisation of the array reconciler `getChanges`. -/

theorem findByKey_some_of_mem_keys : ∀ {items : List Value} {pks : List String} {k : String},
    k ∈ items.map (fun it => getPrimaryKeyValue it pks) →
    ∃ e, findByKey items pks k = some e := by
  intro items
  induction items with
  | nil => intro pks k h; simp at h
  | cons x xs ih =>
    intro pks k h
    by_cases hx : (getPrimaryKeyValue x pks == k) = true
    · exact ⟨x, by simp [findByKey, List.find?, hx]⟩
    · have hxs : k ∈ xs.map (fun it => getPrimaryKeyValue it pks) := by
        rw [List.map_cons] at h
        rcases List.mem_cons.mp h with heq | hm
        · exact absurd (beq_iff_eq.mpr heq.symm) hx
        · exact hm
      obtain ⟨e, he⟩ := ih hxs
      exact ⟨e, by simpa [findByKey, List.find?, hx] using he⟩

theorem findByKey_mem {items : List Value} {pks : List String} {k : String} {e : Value}
    (h : findByKey items pks k = some e) : e ∈ items ∧ getPrimaryKeyValue e pks = k := by
  have h1 := List.mem_of_find?_eq_some h
  have h2 := List.find?_some h
  exact ⟨h1, by simpa using h2⟩

theorem getChanges_eq (a b : List Value) (pks : List String)
    (hta : ∀ e ∈ a, jsTruthy e = true) (htb : ∀ e ∈ b, jsTruthy e = true) :
    getChanges a b pks = .ok
      ⟨a.filter (fun item =>
          !((intersectionL (getPrimaryKeyValues a pks) (getPrimaryKeyValues b pks)).contains
            (getPrimaryKeyValue item pks))),
       b.filter (fun item =>
          !((intersectionL (getPrimaryKeyValues a pks) (getPrimaryKeyValues b pks)).contains
            (getPrimaryKeyValue item pks))),
       (intersectionL (getPrimaryKeyValues a pks) (getPrimaryKeyValues b pks)).map
         (fun k => (k, (findByKey a pks k).getD .undef, (findByKey b pks k).getD .undef))⟩ := by
  have hmap : mapMExcept (fun keyValue =>
      let f := (findByKey a pks keyValue).getD (.undef)
      let t := (findByKey b pks keyValue).getD (.undef)
      if !(jsTruthy f) || !(jsTruthy t) then
        Except.error "Uh oh...something didn\x27t go right"
      else Except.ok (keyValue, f, t))
      (intersectionL (getPrimaryKeyValues a pks) (getPrimaryKeyValues b pks))
      = .ok ((intersectionL (getPrimaryKeyValues a pks) (getPrimaryKeyValues b pks)).map
          (fun k => (k, (findByKey a pks k).getD .undef, (findByKey b pks k).getD .undef))) := by
    apply mapMExcept_ok
    intro k hk
    have hka := (mem_intersectionL.mp hk).1
    have hkb := (mem_intersectionL.mp hk).2
    obtain ⟨ea, hea⟩ := findByKey_some_of_mem_keys (mem_sortStrings.mp hka)
    obtain ⟨eb, heb⟩ := findByKey_some_of_mem_keys (mem_sortStrings.mp hkb)
    have h1 := hta ea (findByKey_mem hea).1
    have h2 := htb eb (findByKey_mem heb).1
    simp [hea, heb, h1, h2]
  simp only [getChanges, hmap]
  rfl

theorem getChanges_self (l : List Value) (pks : List String)
    (ht : ∀ e ∈ l, jsTruthy e = true) :
    getChanges l l pks = .ok
      ⟨[], [],
       (intersectionL (getPrimaryKeyValues l pks) (getPrimaryKeyValues l pks)).map
         (fun k => (k, (findByKey l pks k).getD .undef, (findByKey l pks k).getD .undef))⟩ := by
  have hfilter : l.filter (fun item =>
      !((intersectionL (getPrimaryKeyValues l pks) (getPrimaryKeyValues l pks)).contains
        (getPrimaryKeyValue item pks))) = [] := by
    rw [List.filter_eq_nil_iff]
    intro item hmem
    have hmemk : getPrimaryKeyValue item pks ∈ getPrimaryKeyValues l pks :=
      mem_sortStrings.mpr (List.mem_map.mpr ⟨item, hmem, rfl⟩)
    simp
    exact mem_intersectionL.mpr ⟨hmemk, hmemk⟩
  have h := getChanges_eq l l pks ht ht
  rw [hfilter] at h
  exact h

/-- If every step of the loop keeps the record component of the state and
can only extend the logs (or return early, also keeping the record), the
whole loop keeps the record. -/
theorem foldlM_record_preserved {step : StepState → String → Except String StepState}
    (hpass : ∀ s k, step (.inr s) k = .ok (.inr s))
    (keys : List String)
    (hstep : ∀ r l k, k ∈ keys → ∃ l2,
        step (.inl (r, l)) k = .ok (.inl (r, l2)) ∨ step (.inl (r, l)) k = .ok (.inr (r, l2))) :
    ∀ r l, ∃ l2, keys.foldlM step (.inl (r, l)) = .ok (.inl (r, l2))
      ∨ keys.foldlM step (.inl (r, l)) = .ok (.inr (r, l2)) := by
  induction keys with
  | nil =>
    intro r l
    refine ⟨l, Or.inl ?_⟩
    rfl
  | cons k ks ih =>
    intro r l
    obtain ⟨l2, hc⟩ := hstep r l k (List.mem_cons_self _ _)
    rcases hc with hc | hc
    · obtain ⟨l3, hrest⟩ := ih (fun r2 lx k2 hk2 => hstep r2 lx k2 (List.mem_cons_of_mem _ hk2)) r l2
      refine ⟨l3, ?_⟩
      simp only [List.foldlM, hc]
      exact hrest
    · refine ⟨l2, Or.inr ?_⟩
      simp only [List.foldlM, hc]
      exact foldlM_inr hpass ks (r, l2)

/-! The identity property: diffing a value against itself yields an empty
change record. -/

theorem compatF_prop {fuel : Nat} {v : Value} {d : TypeDescriptor} {key : String}
    {sub : TypeDescriptor} {nm : String} {pd : PropertyDescriptor}
    (h : compatF (fuel + 1) v d = true) (hmem : (key, pd) ∈ d.properties)
    (hpd : pd = .mk .complex (some sub) (some nm)) :
    (∃ items, objGet v key = .arr items ∧
        ∀ e ∈ items, jsTruthy e = true ∧ compatF fuel e sub = true) ∨
      objGet v key = .undef ∨ objGet v key = .null := by
  rw [compatF, List.all_eq_true] at h
  have h2 := h (key, pd) hmem
  subst hpd
  simp only at h2
  cases hv : objGet v key with
  | arr items =>
    rw [hv] at h2
    simp only [List.all_eq_true] at h2
    refine Or.inl ⟨items, rfl, fun e he => ?_⟩
    have h3 := h2 e he
    cases e with
    | obj fs => exact ⟨rfl, h3⟩
    | undef => exact nomatch h3
    | null => exact nomatch h3
    | bool b => exact nomatch h3
    | num n => exact nomatch h3
    | str s => exact nomatch h3
    | arr l2 => exact nomatch h3
  | undef => exact Or.inr (Or.inl rfl)
  | null => exact Or.inr (Or.inr rfl)
  | bool b => rw [hv] at h2; simp at h2
  | num n => rw [hv] at h2; simp at h2
  | str s => rw [hv] at h2; simp at h2
  | obj fs => rw [hv] at h2; simp at h2

theorem selfPrimitiveFilter (la : List Value) :
    la.filter (fun item =>
      !((intersectionL (la.map jsonStringify) (la.map jsonStringify)).contains
        (jsonStringify item))) = [] := by
  rw [List.filter_eq_nil_iff]
  intro item hmem
  have hmemk : jsonStringify item ∈ la.map jsonStringify :=
    List.mem_map.mpr ⟨item, hmem, rfl⟩
  simp
  exact mem_intersectionL.mpr ⟨hmemk, hmemk⟩

theorem inBothFold_self {fuel : Nat} {fr tr : Value} {sub : TypeDescriptor}
    (pks : List String) (name : String) :
    ∀ (pairs : List (String × Value × Value)) (r : DiffRecord) (l : List String),
    (∀ trip ∈ pairs, trip.2.1 = trip.2.2 ∧
        ∃ logs2, processChanges fuel [] fr tr trip.2.1 trip.2.2 sub = .ok ([], logs2)) →
    ∃ l2, pairs.foldlM
        (inBothEntry (fun f t s2 => processChanges fuel [] fr tr f t s2) pks name sub)
        (r, l) = .ok (r, l2) := by
  intro pairs
  induction pairs with
  | nil => intro r l _; exact ⟨l, rfl⟩
  | cons trip rest ih =>
    intro r l hyp
    obtain ⟨heq, logs2, hrec⟩ := hyp trip (List.mem_cons_self _ _)
    obtain ⟨k, cf, ct⟩ := trip
    have hone : inBothEntry (fun f t s2 => processChanges fuel [] fr tr f t s2) pks name sub
        (r, l) (k, cf, ct) = .ok (r, l ++ logs2) := by
      simp only [inBothEntry, hrec]
      rfl
    obtain ⟨l2, hrest⟩ := ih r (l ++ logs2) (fun t ht => hyp t (List.mem_cons_of_mem _ ht))
    refine ⟨l2, ?_⟩
    simp only [List.foldlM, hone]
    exact hrest

theorem processChangesStep_self {fuel : Nat} (fr tr : Value) {x : Value} {d : TypeDescriptor}
    (hwf : wfValue x = true) (hc : compatF (fuel + 1) x d = true)
    (ih : ∀ cr2 f sub, wfValue f = true → compatF fuel f sub = true →
        ∃ logs, processChanges fuel cr2 fr tr f f sub = .ok (cr2, logs)) :
    ∀ r l key, ∃ l2,
      processChangesStep (fun f t sub => processChanges fuel [] fr tr f t sub)
          (fun root v sub => processComplexTypeTransformations fuel [] root v sub)
          fr tr x x d (.inl (r, l)) key = .ok (.inl (r, l2))
        ∨ processChangesStep (fun f t sub => processChanges fuel [] fr tr f t sub)
          (fun root v sub => processComplexTypeTransformations fuel [] root v sub)
          fr tr x x d (.inl (r, l)) key = .ok (.inr (r, l2)) := by
  intro r l key
  cases hlk : lookupProp d.properties key with
  | none => exact ⟨l, Or.inl (by simp [processChangesStep, hlk]; rfl)⟩
  | some pd =>
    obtain ⟨ptype, pdesc, pname⟩ := pd
    cases pname with
    | none =>
      exact ⟨l ++ [nameErrorMsg d], Or.inr (by
        simp [processChangesStep, hlk, PropertyDescriptor.name]; rfl)⟩
    | some nm =>
      cases ptype with
      | complex =>
        cases pdesc with
        | none =>
          exact ⟨l ++ [descriptorErrorMsg d nm], Or.inr (by
            simp [processChangesStep, hlk, PropertyDescriptor.name,
              PropertyDescriptor.type, PropertyDescriptor.descriptor]; rfl)⟩
        | some sub =>
          cases hpk : toArray sub.primaryKey with
          | none =>
            exact ⟨l ++ [primaryKeyErrorMsg d nm], Or.inr (by
              simp [processChangesStep, hlk, PropertyDescriptor.name,
                PropertyDescriptor.type, PropertyDescriptor.descriptor, hpk]; rfl)⟩
          | some pks =>
            rcases compatF_prop hc (lookupProp_mem hlk) rfl with
              ⟨items, hv, hcomp⟩ | hv | hv
            · -- both sides are the same array: reconciliation of a list
              -- against itself contributes nothing
              have hself := getChanges_self items pks (fun e he => (hcomp e he).1)
              have hwfitems : wfValue (objGet x key) = true := wfValue_objGet key hwf
              rw [hv] at hwfitems
              have hpairs : ∀ trip ∈ (intersectionL (getPrimaryKeyValues items pks)
                  (getPrimaryKeyValues items pks)).map
                    (fun k => (k, (findByKey items pks k).getD .undef,
                      (findByKey items pks k).getD .undef)),
                  trip.2.1 = trip.2.2 ∧
                  ∃ logs2, processChanges fuel [] fr tr trip.2.1 trip.2.2 sub
                    = .ok ([], logs2) := by
                intro trip htrip
                obtain ⟨k2, hk2, htripeq⟩ := List.mem_map.mp htrip
                subst htripeq
                refine ⟨rfl, ?_⟩
                obtain ⟨e, he⟩ := findByKey_some_of_mem_keys
                  (mem_sortStrings.mp (mem_intersectionL.mp hk2).1)
                rw [he]
                have hemem := (findByKey_mem he).1
                exact ih [] e sub (wfValue_arr_elem hwfitems hemem) ((hcomp e hemem).2)
              obtain ⟨l2, hfold⟩ := inBothFold_self pks nm
                ((intersectionL (getPrimaryKeyValues items pks)
                  (getPrimaryKeyValues items pks)).map
                    (fun k => (k, (findByKey items pks k).getD .undef,
                      (findByKey items pks k).getD .undef))) r l hpairs
              refine ⟨l2, Or.inl ?_⟩
              simp [processChangesStep, hlk, PropertyDescriptor.name,
                PropertyDescriptor.type, PropertyDescriptor.descriptor, hpk, hv, hself,
                exceptBind_ok, exceptMap_ok, hfold]
            · -- both sides nil (undefined)
              refine ⟨l, Or.inl ?_⟩
              simp [processChangesStep, hlk, PropertyDescriptor.name,
                PropertyDescriptor.type, PropertyDescriptor.descriptor, hpk, hv, isNil]
              rfl
            · -- both sides nil (null)
              refine ⟨l, Or.inl ?_⟩
              simp [processChangesStep, hlk, PropertyDescriptor.name,
                PropertyDescriptor.type, PropertyDescriptor.descriptor, hpk, hv, isNil]
              rfl
      | boolean =>
        refine ⟨l, Or.inl ?_⟩
        have hwfv : wfValue (objGet x nm) = true := wfValue_objGet nm hwf
        cases hv : objGet x nm with
        | arr elems =>
          simp only [processChangesStep, hlk, PropertyDescriptor.name,
            PropertyDescriptor.type, hv, selfPrimitiveFilter, List.isEmpty_nil,
            Bool.not_true, Bool.or_self, Bool.false_eq_true, if_false]
          rfl
        | undef =>
          simp [processChangesStep, hlk, PropertyDescriptor.name,
            PropertyDescriptor.type, hv, isEqual_refl _ (hv ▸ hwfv)]
          rfl
        | null =>
          simp [processChangesStep, hlk, PropertyDescriptor.name,
            PropertyDescriptor.type, hv, isEqual_refl _ (hv ▸ hwfv)]
          rfl
        | bool b2 =>
          simp [processChangesStep, hlk, PropertyDescriptor.name,
            PropertyDescriptor.type, hv, isEqual_refl _ (hv ▸ hwfv)]
          rfl
        | num n2 =>
          simp [processChangesStep, hlk, PropertyDescriptor.name,
            PropertyDescriptor.type, hv, isEqual_refl _ (hv ▸ hwfv)]
          rfl
        | str s2 =>
          simp [processChangesStep, hlk, PropertyDescriptor.name,
            PropertyDescriptor.type, hv, isEqual_refl _ (hv ▸ hwfv)]
          rfl
        | obj fs2 =>
          simp [processChangesStep, hlk, PropertyDescriptor.name,
            PropertyDescriptor.type, hv, isEqual_refl _ (hv ▸ hwfv)]
          rfl
      | number =>
        refine ⟨l, Or.inl ?_⟩
        have hwfv : wfValue (objGet x nm) = true := wfValue_objGet nm hwf
        cases hv : objGet x nm with
        | arr elems =>
          simp only [processChangesStep, hlk, PropertyDescriptor.name,
            PropertyDescriptor.type, hv, selfPrimitiveFilter, List.isEmpty_nil,
            Bool.not_true, Bool.or_self, Bool.false_eq_true, if_false]
          rfl
        | undef =>
          simp [processChangesStep, hlk, PropertyDescriptor.name,
            PropertyDescriptor.type, hv, isEqual_refl _ (hv ▸ hwfv)]
          rfl
        | null =>
          simp [processChangesStep, hlk, PropertyDescriptor.name,
            PropertyDescriptor.type, hv, isEqual_refl _ (hv ▸ hwfv)]
          rfl
        | bool b2 =>
          simp [processChangesStep, hlk, PropertyDescriptor.name,
            PropertyDescriptor.type, hv, isEqual_refl _ (hv ▸ hwfv)]
          rfl
        | num n2 =>
          simp [processChangesStep, hlk, PropertyDescriptor.name,
            PropertyDescriptor.type, hv, isEqual_refl _ (hv ▸ hwfv)]
          rfl
        | str s2 =>
          simp [processChangesStep, hlk, PropertyDescriptor.name,
            PropertyDescriptor.type, hv, isEqual_refl _ (hv ▸ hwfv)]
          rfl
        | obj fs2 =>
          simp [processChangesStep, hlk, PropertyDescriptor.name,
            PropertyDescriptor.type, hv, isEqual_refl _ (hv ▸ hwfv)]
          rfl
      | string =>
        refine ⟨l, Or.inl ?_⟩
        have hwfv : wfValue (objGet x nm) = true := wfValue_objGet nm hwf
        cases hv : objGet x nm with
        | arr elems =>
          simp only [processChangesStep, hlk, PropertyDescriptor.name,
            PropertyDescriptor.type, hv, selfPrimitiveFilter, List.isEmpty_nil,
            Bool.not_true, Bool.or_self, Bool.false_eq_true, if_false]
          rfl
        | undef =>
          simp [processChangesStep, hlk, PropertyDescriptor.name,
            PropertyDescriptor.type, hv, isEqual_refl _ (hv ▸ hwfv)]
          rfl
        | null =>
          simp [processChangesStep, hlk, PropertyDescriptor.name,
            PropertyDescriptor.type, hv, isEqual_refl _ (hv ▸ hwfv)]
          rfl
        | bool b2 =>
          simp [processChangesStep, hlk, PropertyDescriptor.name,
            PropertyDescriptor.type, hv, isEqual_refl _ (hv ▸ hwfv)]
          rfl
        | num n2 =>
          simp [processChangesStep, hlk, PropertyDescriptor.name,
            PropertyDescriptor.type, hv, isEqual_refl _ (hv ▸ hwfv)]
          rfl
        | str s2 =>
          simp [processChangesStep, hlk, PropertyDescriptor.name,
            PropertyDescriptor.type, hv, isEqual_refl _ (hv ▸ hwfv)]
          rfl
        | obj fs2 =>
          simp [processChangesStep, hlk, PropertyDescriptor.name,
            PropertyDescriptor.type, hv, isEqual_refl _ (hv ▸ hwfv)]
          rfl

theorem processChanges_self : ∀ (fuel : Nat) (cr : DiffRecord) (fr tr x : Value)
    (d : TypeDescriptor), wfValue x = true → compatF fuel x d = true →
    ∃ logs, processChanges fuel cr fr tr x x d = .ok (cr, logs) := by
  intro fuel
  induction fuel with
  | zero => intro cr fr tr x d _ hc; simp [compatF] at hc
  | succ fuel ih =>
    intro cr fr tr x d hwf hc
    have hstep := processChangesStep_self fr tr hwf hc
      (fun cr2 f sub hwf2 hc2 => ih cr2 fr tr f sub hwf2 hc2)
    obtain ⟨l2, hfold⟩ := foldlM_record_preserved
      (processChangesStep_inr _ _ fr tr x x d)
      (sortStrings (d.properties.map (fun p => p.1)))
      (fun r2 lx k2 _ => hstep r2 lx k2) cr []
    rcases hfold with hfold | hfold <;>
      exact ⟨l2, by simp only [processChanges, hfold]; rfl⟩

/-- C2. Identity: for every JavaScript-representable value `x` and every
descriptor `D` structurally compatible with `x`, `diff x x D` returns an
empty change result — the top-level mapping is the empty record, so no
nested change entries exist at any level (configuration faults may still
be logged, but contribute nothing to the result). -/
theorem claim_C2_identity (x : Value) (d : TypeDescriptor)
    (hwf : wfValue x = true) (hcompat : compatF d.depth x d = true) :
    ∃ logs, diff x x d = .ok ([], logs) :=
  processChanges_self d.depth [] x x x d hwf hcompat

theorem claim_C2_identity_witness :
    (wfValue exampleFrom = true
      ∧ compatF automobileCollection.depth exampleFrom automobileCollection = true)
    ∧ ∃ logs, diff exampleFrom exampleFrom automobileCollection = .ok ([], logs) :=
  ⟨⟨by rfl, by rfl⟩,
   claim_C2_identity exampleFrom automobileCollection (by rfl) (by rfl)⟩

/-! Canonical primary keys (claims C7 and C10). -/

theorem foldl_key_congr (f1 f2 : String → String) :
    ∀ (ks : List String), (∀ k ∈ ks, f1 k = f2 k) → ∀ acc : String,
    List.foldl (fun result k => result ++ k ++ ":" ++ f1 k ++ ";") acc ks
      = List.foldl (fun result k => result ++ k ++ ":" ++ f2 k ++ ";") acc ks
  | [], _, _ => rfl
  | k :: ks, h, acc => by
    simp only [List.foldl_cons, h k (List.mem_cons_self _ _)]
    exact foldl_key_congr f1 f2 ks (fun k2 hk2 => h k2 (List.mem_cons_of_mem _ hk2)) _

theorem getPrimaryKeyValue_congr {item1 item2 : Value} {pks : List String}
    (h : ∀ k ∈ pks, strToLower (valueToString (jsOrEmpty (objGet item1 k)))
        = strToLower (valueToString (jsOrEmpty (objGet item2 k)))) :
    getPrimaryKeyValue item1 pks = getPrimaryKeyValue item2 pks := by
  unfold getPrimaryKeyValue
  exact foldl_key_congr
    (fun k => strToLower (valueToString (jsOrEmpty (objGet item1 k))))
    (fun k => strToLower (valueToString (jsOrEmpty (objGet item2 k))))
    (sortStrings pks) (fun k hk => h k (mem_sortStrings.mp hk)) ""

/-- C10. In the canonical-key computation every falsy primary-key value
(`null`, `undefined`, `0`, `false`, the empty string) is normalized to
the empty string by `item[primaryKey] || ''` before string coercion, so
any two elements whose primary-key values are all falsy — in particular,
distinct falsy values such as `0` on one element and the empty string on
the other — receive identical canonical keys; consequently the
reconciler matches them as the same identity (the concrete conjunct:
`0` versus `''` produces no removed and no added element, just one
matched pair). -/
theorem claim_C10_falsy_key_normalization :
    (∀ v : Value, jsTruthy v = false → jsOrEmpty v = .str "")
    ∧ (∀ (item1 item2 : Value) (pks : List String),
        (∀ k ∈ pks, jsTruthy (objGet item1 k) = false ∧ jsTruthy (objGet item2 k) = false) →
        getPrimaryKeyValue item1 pks = getPrimaryKeyValue item2 pks)
    ∧ getChanges [.obj [("id", .num 0)]] [.obj [("id", .str "")]] ["id"]
        = .ok ⟨[], [], [("id:;", .obj [("id", .num 0)], .obj [("id", .str "")])]⟩ := by
  refine ⟨fun v hv => by simp [jsOrEmpty, hv], fun item1 item2 pks h => ?_, by rfl⟩
  refine getPrimaryKeyValue_congr (fun k hk => ?_)
  obtain ⟨h1, h2⟩ := h k hk
  simp [jsOrEmpty, h1, h2]

theorem claim_C10_falsy_key_normalization_witness :
    ((jsTruthy (objGet (.obj [("id", .null)]) "id") = false
        ∧ jsTruthy (objGet (.obj [("id", .bool false)]) "id") = false)
      ∧ getPrimaryKeyValue (.obj [("id", .null)]) ["id"]
          = getPrimaryKeyValue (.obj [("id", .bool false)]) ["id"]) :=
  ⟨⟨by rfl, by rfl⟩,
   claim_C10_falsy_key_normalization.2.1 (.obj [("id", .null)]) (.obj [("id", .bool false)])
     ["id"] (fun k hk => by
        cases hk with
        | head => exact ⟨rfl, rfl⟩
        | tail _ h2 => cases h2)⟩

/-- C7 as stated is false on the code: the canonical key coerces
`item[primaryKey] || ''`, not `item[primaryKey]`, so a falsy primary-key
value such as `0` yields the fragment `id:;` where the claimed formula
(plain string coercion) yields `id:0;`. -/
theorem claim_C7_counterexample :
    getPrimaryKeyValue (.obj [("id", .num 0)]) ["id"] = "id:;"
    ∧ claimedPrimaryKeyValue (.obj [("id", .num 0)]) ["id"] = "id:0;"
    ∧ getPrimaryKeyValue (.obj [("id", .num 0)]) ["id"]
        ≠ claimedPrimaryKeyValue (.obj [("id", .num 0)]) ["id"] :=
  ⟨rfl, rfl, by decide⟩

/-- C7 amended. The canonical key of an element concatenates, over the
lexicographically sorted primary-key names, the name, a colon, the
element's value for that name — first normalized to the empty string if
falsy, then string-coerced and lowercased — and a semicolon. On elements
whose primary-key values are all truthy this coincides with the claimed
plain-coercion formula, and two elements whose (normalized, coerced)
primary-key values agree up to letter case receive the same canonical
key; the closing conjunct shows the reconciler matching `ABC` with
`abc` as the same identity. -/
theorem claim_C7_canonical_key (item item1 item2 : Value) (pks : List String)
    (htruthy : ∀ k ∈ pks, jsTruthy (objGet item k) = true)
    (hcase : ∀ k ∈ pks, strToLower (valueToString (jsOrEmpty (objGet item1 k)))
        = strToLower (valueToString (jsOrEmpty (objGet item2 k)))) :
    getPrimaryKeyValue item pks = claimedPrimaryKeyValue item pks
    ∧ getPrimaryKeyValue item1 pks = getPrimaryKeyValue item2 pks
    ∧ getChanges [.obj [("id", .str "ABC")]] [.obj [("id", .str "abc")]] ["id"]
        = .ok ⟨[], [], [("id:abc;", .obj [("id", .str "ABC")], .obj [("id", .str "abc")])]⟩ := by
  refine ⟨?_, getPrimaryKeyValue_congr hcase, by rfl⟩
  unfold getPrimaryKeyValue claimedPrimaryKeyValue
  exact foldl_key_congr
    (fun k => strToLower (valueToString (jsOrEmpty (objGet item k))))
    (fun k => strToLower (valueToString (objGet item k)))
    (sortStrings pks)
    (fun k hk => by simp [jsOrEmpty, htruthy k (mem_sortStrings.mp hk)]) ""

theorem claim_C7_canonical_key_witness :
    getPrimaryKeyValue (.obj [("id", .str "ABC")]) ["id"]
        = claimedPrimaryKeyValue (.obj [("id", .str "ABC")]) ["id"]
    ∧ getPrimaryKeyValue (.obj [("id", .str "ABC")]) ["id"]
        = getPrimaryKeyValue (.obj [("id", .str "abc")]) ["id"] :=
  ⟨(claim_C7_canonical_key (.obj [("id", .str "ABC")]) (.obj [("id", .str "ABC")])
      (.obj [("id", .str "abc")]) ["id"]
      (fun k hk => by cases hk with
        | head => rfl
        | tail _ h2 => cases h2)
      (fun k hk => by cases hk with
        | head => rfl
        | tail _ h2 => cases h2)).1,
   (claim_C7_canonical_key (.obj [("id", .str "ABC")]) (.obj [("id", .str "ABC")])
      (.obj [("id", .str "abc")]) ["id"]
      (fun k hk => by cases hk with
        | head => rfl
        | tail _ h2 => cases h2)
      (fun k hk => by cases hk with
        | head => rfl
        | tail _ h2 => cases h2)).2.1⟩

/-- C4. The code contradicts the spec's prescribed scoping: on a
configuration fault (here a property `a` with no bound name) the service
logs through the logger's `error` method but then aborts the whole
enclosing object's traversal, so the sibling property `b` — whose value
changed from 1 to 2 — contributes nothing: the result is empty rather
than containing `b`'s change marker. -/
theorem claim_C4_config_error_scope :
    diff (.obj [("a", .num 1), ("b", .num 1)]) (.obj [("a", .num 1), ("b", .num 2)])
      (.mk "Bug" [("a", .mk .number none none), ("b", .mk .number none (some "b"))] none)
      = .ok ([], ["Property descriptors need a property name (property: \x27Bug\x27)."])
    ∧ recordGet [] "b" = .undef :=
  ⟨rfl, rfl⟩

/-! Asymmetry of the relational comparison and sortedness of lodash
`sortBy` output (claim C6). -/

theorem charListLt_asymm : ∀ {a b : List Char}, charListLt a b = true → charListLt b a = false
  | [], [], h => by simp [charListLt] at h ⊢
  | [], _ :: _, _ => by simp [charListLt]
  | _ :: _, [], h => by simp [charListLt] at h
  | c :: cs, d :: ds, h => by
    by_cases h1 : c.toNat < d.toNat
    · have h2 : ¬(d.toNat < c.toNat) := by omega
      simp [charListLt, h1, h2]
    · by_cases h2 : d.toNat < c.toNat
      · simp [charListLt, h1, h2] at h
      · simp only [charListLt, if_neg h1, if_neg h2] at h
        simp only [charListLt, if_neg h1, if_neg h2]
        exact charListLt_asymm h

theorem strLtb_asymm {a b : String} (h : strLtb a b = true) : strLtb b a = false :=
  charListLt_asymm h

theorem numLess_asymm : ∀ {oa ob : Option Int}, numLess oa ob = true → numLess ob oa = false
  | none, _, h => by cases h
  | some x, none, h => by cases h
  | some x, some y, h => by
    simp only [numLess, decide_eq_true_eq] at h
    simp only [numLess, decide_eq_false_iff_not]
    omega

theorem jsLess_asymm (a b : Value) (h : jsLess a b = true) : jsLess b a = false := by
  unfold jsLess at h ⊢
  cases hpa : toPrimitiveV a <;> cases hpb : toPrimitiveV b <;>
    (try simp only [hpa, hpb] at h ⊢) <;>
    first
      | exact strLtb_asymm h
      | exact numLess_asymm h

theorem jsLess_undef_left (b : Value) : jsLess .undef b = false := by
  unfold jsLess
  cases hpb : toPrimitiveV b <;> simp only [toPrimitiveV] <;> rfl

theorem isUndefV_iff {v : Value} : isUndefV v = true ↔ v = .undef := by
  cases v <;> simp [isUndefV]

theorem isNullV_iff {v : Value} : isNullV v = true ↔ v = .null := by
  cases v <;> simp [isNullV]

theorem jsLess_false_of_undef_left {a b : Value} (ha : isUndefV a = true) :
    jsLess a b = false := by
  rw [isUndefV_iff.mp ha]
  exact jsLess_undef_left b

/-- Totality of the `compareAscending` comparator: one of the two
orientations is always non-positive. -/
theorem compareAscending_total (a b : Value) :
    compareAscending a b ≤ 0 ∨ compareAscending b a ≤ 0 := by
  by_cases h1 : compareAscending a b ≤ 0
  · exact Or.inl h1
  · right
    unfold compareAscending at h1 ⊢
    by_cases huu : (isUndefV a && isUndefV b) = true
    · simp [huu] at h1
    by_cases hnn : (isNullV a && isNullV b) = true
    · simp [huu, hnn] at h1
    by_cases hg1 : ((!(isNullV b) && jsLess b a) || (isNullV a && !(isUndefV b))
        || isUndefV a) = true
    · have hg1b := hg1
      simp only [Bool.or_eq_true, Bool.and_eq_true, Bool.not_eq_true'] at hg1
      rcases hg1 with (⟨hb, hless⟩ | ⟨ha, hb⟩) | ha
      · -- forward guard by the relational comparison
        have hub : isUndefV b = false := by
          cases h : isUndefV b with
          | false => rfl
          | true =>
            rw [jsLess_false_of_undef_left h] at hless
            cases hless
        have hrev : jsLess a b = false := jsLess_asymm b a hless
        simp [hb, hub, hrev, hless]
      · -- forward guard because a is null and b is defined
        have hnb : isNullV b = false := by
          cases h : isNullV b with
          | false => rfl
          | true =>
            have hand : (isNullV a && isNullV b) = true := by rw [ha, h]; rfl
            exact absurd hand hnn
        have hua : isUndefV a = false := by
          rw [isNullV_iff.mp ha]
          rfl
        simp [ha, hb, hnb, hua]
      · -- forward guard because a is undefined
        have hub : isUndefV b = false := by
          cases h : isUndefV b with
          | false => rfl
          | true =>
            have hand : (isUndefV a && isUndefV b) = true := by rw [ha, h]; rfl
            exact absurd hand huu
        have hrev : jsLess a b = false := jsLess_false_of_undef_left ha
        have hna : isNullV a = false := by
          rw [isUndefV_iff.mp ha]
          rfl
        simp [ha, hub, hrev, hna]
    · by_cases hg2 : ((!(isNullV a) && jsLess a b) || (isNullV b && !(isUndefV a))
          || isUndefV b) = true <;>
        simp [huu, hnn, hg1, hg2] at h1

/-- Inserting into a chain-sorted list keeps it chain-sorted when the
relation is total. -/
theorem chain'_orderedInsert {r : Value → Value → Prop} [DecidableRel r]
    (htot : ∀ a b, r a b ∨ r b a) :
    ∀ (l : List Value) (a : Value), List.Chain' r l →
      List.Chain' r (List.orderedInsert r a l)
  | [], a, _ => List.chain'_singleton a
  | b :: l, a, h => by
    rw [List.orderedInsert]
    by_cases hab : r a b
    · rw [if_pos hab]
      exact List.chain'_cons.mpr ⟨hab, h⟩
    · rw [if_neg hab]
      have hba : r b a := (htot a b).resolve_left hab
      cases l with
      | nil => exact List.chain'_cons.mpr ⟨hba, List.chain'_singleton a⟩
      | cons c l2 =>
        have h2 := List.chain'_cons.mp h
        rw [List.orderedInsert]
        by_cases hac : r a c
        · rw [if_pos hac]
          exact List.chain'_cons.mpr ⟨hba, List.chain'_cons.mpr ⟨hac, h2.2⟩⟩
        · rw [if_neg hac]
          have hrec := chain'_orderedInsert htot (c :: l2) a h2.2
          rw [List.orderedInsert, if_neg hac] at hrec
          exact List.chain'_cons.mpr ⟨h2.1, hrec⟩

theorem chain'_insertionSort {r : Value → Value → Prop} [DecidableRel r]
    (htot : ∀ a b, r a b ∨ r b a) :
    ∀ l : List Value, List.Chain' r (List.insertionSort r l)
  | [] => List.chain'_nil
  | a :: l => by
    rw [List.insertionSort]
    exact chain'_orderedInsert htot _ a (chain'_insertionSort htot l)

/-- Lodash `sortBy` output is sorted: consecutive elements always compare
non-positively under `compareAscending`. -/
theorem sortValues_chain (l : List Value) : List.Chain' ascLE (sortValues l) :=
  chain'_insertionSort (fun a b => compareAscending_total a b) l

/-- The reconciling filter over the `intersection` of the two serialised
element lists coincides with direct membership in the other side's
serialised elements. -/
theorem stringifyFilter_eq (fromArr toArr : List Value) :
    fromArr.filter (fun item =>
      !((intersectionL (fromArr.map jsonStringify) (toArr.map jsonStringify)).contains
        (jsonStringify item)))
    = fromArr.filter (fun item =>
        !((toArr.map jsonStringify).contains (jsonStringify item))) := by
  apply List.filter_congr
  intro item hmem
  have hf : (fromArr.map jsonStringify).contains (jsonStringify item) = true :=
    contains_iff_mem.mpr (List.mem_map.mpr ⟨item, hmem, rfl⟩)
  rw [contains_intersectionL, hf, Bool.true_and]

/-- Added-side analogue of `stringifyFilter_eq`. -/
theorem stringifyFilterAdded_eq (fromArr toArr : List Value) :
    toArr.filter (fun item =>
      !((intersectionL (fromArr.map jsonStringify) (toArr.map jsonStringify)).contains
        (jsonStringify item)))
    = toArr.filter (fun item =>
        !((fromArr.map jsonStringify).contains (jsonStringify item))) := by
  apply List.filter_congr
  intro item hmem
  have ht : (toArr.map jsonStringify).contains (jsonStringify item) = true :=
    contains_iff_mem.mpr (List.mem_map.mpr ⟨item, hmem, rfl⟩)
  rw [contains_intersectionL, ht, Bool.and_true]

/-- C6 as stated is false on the code: membership in the primitive-array
set diff is decided by `JSON.stringify` string equality, which is
sensitive to object key order. The two objects below are structurally
equal under lodash `isEqual` (key-order insensitive), so the claim
predicts an empty diff for `xs`, yet the code emits a removed marker and
an added marker for them. -/
theorem claim_C6_counterexample :
    isEqual (.obj [("a", .num 1), ("b", .num 2)]) (.obj [("b", .num 2), ("a", .num 1)]) = true
    ∧ diff (.obj [("xs", .arr [.obj [("a", .num 1), ("b", .num 2)]])])
        (.obj [("xs", .arr [.obj [("b", .num 2), ("a", .num 1)]])])
        (.mk "P" [("xs", .mk .string none (some "xs"))] none)
      = .ok ([("xs", .arr [.obj [("-", .arr [.obj [("a", .num 1), ("b", .num 2)]])],
                           .obj [("+", .arr [.obj [("b", .num 2), ("a", .num 1)]])]])], []) :=
  ⟨rfl, rfl⟩

/-- C6 amended. For every primitive-kind property where both the from and
the to value are arrays, the walk treats them as unordered sets under
`JSON.stringify` string equality — which is key-order sensitive, unlike
the claimed key-order-insensitive structural equality: it emits, in
order, a removed marker holding the lodash-sorted elements of from whose
serialisation does not occur among the serialisations of to's elements
and an added marker with the converse set, each marker only if its set
is non-empty, and emits nothing for the property when both sets are
empty. The final conjunct states that the sorted marker contents are a
permutation of the set, consecutive elements comparing non-positively
under the lodash comparator. -/
theorem claim_C6_primitive_array_set_diff
    (recurse snapshot : Value → Value → TypeDescriptor → Except String (DiffRecord × List String))
    (fromRoot toRoot fromV toV : Value) (d : TypeDescriptor) (r : DiffRecord) (l : List String)
    (key nm : String) (pd : PropertyDescriptor)
    (hlk : lookupProp d.properties key = some pd)
    (hname : pd.name = some nm) (hprim : pd.type ≠ .complex)
    (fromArr toArr : List Value)
    (hfv : objGet fromV nm = .arr fromArr) (htv : objGet toV nm = .arr toArr) :
    (fromArr.filter (fun item =>
        !((toArr.map jsonStringify).contains (jsonStringify item))) = [] →
     toArr.filter (fun item =>
        !((fromArr.map jsonStringify).contains (jsonStringify item))) = [] →
     processChangesStep recurse snapshot fromRoot toRoot fromV toV d (.inl (r, l)) key
       = .ok (.inl (r, l)))
    ∧ (¬(fromArr.filter (fun item =>
          !((toArr.map jsonStringify).contains (jsonStringify item))) = []
        ∧ toArr.filter (fun item =>
          !((fromArr.map jsonStringify).contains (jsonStringify item))) = []) →
       processChangesStep recurse snapshot fromRoot toRoot fromV toV d (.inl (r, l)) key
         = .ok (.inl (recordSet r nm (.arr (
             (if !(fromArr.filter (fun item =>
                  !((toArr.map jsonStringify).contains (jsonStringify item)))).isEmpty
              then [Value.obj [("-", .arr (sortValues (fromArr.filter (fun item =>
                !((toArr.map jsonStringify).contains (jsonStringify item))))))]]
              else [])
             ++ (if !(toArr.filter (fun item =>
                  !((fromArr.map jsonStringify).contains (jsonStringify item)))).isEmpty
              then [Value.obj [("+", .arr (sortValues (toArr.filter (fun item =>
                !((fromArr.map jsonStringify).contains (jsonStringify item))))))]]
              else []))), l)))
    ∧ (∀ items : List Value,
        List.Perm (sortValues items) items ∧ List.Chain' ascLE (sortValues items)) := by
  obtain ⟨pt, od, pn⟩ := pd
  have hpn : pn = some nm := by simpa [PropertyDescriptor.name] using hname
  subst hpn
  refine ⟨?_, ?_, fun items => ⟨sortValues_perm items, sortValues_chain items⟩⟩
  · intro h1 h2
    cases pt <;>
      first
        | exact absurd rfl hprim
        | (simp only [processChangesStep, hlk, PropertyDescriptor.name,
             PropertyDescriptor.type, hfv, htv, stringifyFilter_eq, stringifyFilterAdded_eq,
             h1, h2, List.isEmpty_nil, Bool.not_true, Bool.or_self, Bool.false_eq_true,
             if_false]
           rfl)
  · intro hne
    have hcond : (!(fromArr.filter (fun item =>
          !((toArr.map jsonStringify).contains (jsonStringify item)))).isEmpty
        || !(toArr.filter (fun item =>
          !((fromArr.map jsonStringify).contains (jsonStringify item)))).isEmpty) = true := by
      by_cases hr : fromArr.filter (fun item =>
          !((toArr.map jsonStringify).contains (jsonStringify item))) = []
      · have ha : toArr.filter (fun item =>
            !((fromArr.map jsonStringify).contains (jsonStringify item))) ≠ [] :=
          fun h => hne ⟨hr, h⟩
        have hb : (toArr.filter (fun item =>
            !((fromArr.map jsonStringify).contains (jsonStringify item)))).isEmpty = false := by
          cases hq : (toArr.filter (fun item =>
              !((fromArr.map jsonStringify).contains (jsonStringify item)))).isEmpty
          · rfl
          · exact absurd (List.isEmpty_iff.mp hq) ha
        rw [hb]
        simp only [Bool.not_false, Bool.or_true]
      · have hb : (fromArr.filter (fun item =>
            !((toArr.map jsonStringify).contains (jsonStringify item)))).isEmpty = false := by
          cases hq : (fromArr.filter (fun item =>
              !((toArr.map jsonStringify).contains (jsonStringify item)))).isEmpty
          · rfl
          · exact absurd (List.isEmpty_iff.mp hq) hr
        rw [hb]
        simp only [Bool.not_false, Bool.true_or]
    cases pt <;>
      first
        | exact absurd rfl hprim
        | (simp only [processChangesStep, hlk, PropertyDescriptor.name,
             PropertyDescriptor.type, hfv, htv, stringifyFilter_eq, stringifyFilterAdded_eq,
             hcond, if_true]
           rfl)

theorem claim_C6_primitive_array_set_diff_witness :
    lookupProp [("xs", PropertyDescriptor.mk .string none (some "xs"))] "xs"
      = some (PropertyDescriptor.mk .string none (some "xs"))
    ∧ processChangesStep (fun _ _ _ => Except.error "r") (fun _ _ _ => Except.error "s")
        (.obj []) (.obj []) (.obj [("xs", .arr [.num 1])]) (.obj [("xs", .arr [.num 2])])
        (.mk "P" [("xs", .mk .string none (some "xs"))] none) (.inl ([], [])) "xs"
      = .ok (.inl ([("xs", .arr [.obj [("-", .arr [.num 1])],
          .obj [("+", .arr [.num 2])]])], [])) := by
  refine ⟨rfl, ?_⟩
  have h := (claim_C6_primitive_array_set_diff (fun _ _ _ => Except.error "r")
    (fun _ _ _ => Except.error "s") (.obj []) (.obj [])
    (.obj [("xs", .arr [.num 1])]) (.obj [("xs", .arr [.num 2])])
    (.mk "P" [("xs", .mk .string none (some "xs"))] none) [] [] "xs" "xs"
    (.mk .string none (some "xs")) rfl rfl (by decide) [.num 1] [.num 2] rfl rfl).2.1
    (fun hc => nomatch hc.1)
  exact h

/-! Totality of the per-property loop bodies when the recursive calls
succeed, used to show that a well-shaped complex property never raises. -/

theorem exceptPureBind {α β : Type} (a : α) (f : α → Except String β) :
    ((pure a : Except String α) >>= f) = f a := rfl

theorem foldlM_ok {α β : Type} {f : β → α → Except String β}
    (h : ∀ acc x, ∃ acc2, f acc x = .ok acc2) :
    ∀ (l : List α) (init : β), ∃ res, l.foldlM f init = .ok res := by
  intro l
  induction l with
  | nil => intro init; exact ⟨init, rfl⟩
  | cons x xs ih =>
    intro init
    obtain ⟨acc2, hx⟩ := h init x
    obtain ⟨res, hrest⟩ := ih acc2
    refine ⟨res, ?_⟩
    simp only [List.foldlM, hx]
    exact hrest

theorem unmatchedEntry_ok
    (snapshot : Value → Value → TypeDescriptor → Except String (DiffRecord × List String))
    (sign : String) (root : Value) (td : TypeDescriptor)
    (hsnap : ∀ a b t, ∃ out, snapshot a b t = .ok out)
    (acc : List Value × List String) (item : Value) :
    ∃ acc2, unmatchedEntry snapshot sign root td acc item = .ok acc2 := by
  obtain ⟨⟨ti, lg⟩, hout⟩ := hsnap root item td
  refine ⟨(acc.1 ++ [Value.obj [(sign, Value.obj ti)]], acc.2 ++ lg), ?_⟩
  simp only [unmatchedEntry, hout, exceptBind_ok]
  rfl

theorem inBothEntry_ok
    (recurse : Value → Value → TypeDescriptor → Except String (DiffRecord × List String))
    (pks : List String) (nm : String) (td : TypeDescriptor)
    (hrec : ∀ a b t, ∃ out, recurse a b t = .ok out)
    (acc : DiffRecord × List String) (change : String × Value × Value) :
    ∃ acc2, inBothEntry recurse pks nm td acc change = .ok acc2 := by
  obtain ⟨k, cf, ct⟩ := change
  obtain ⟨⟨icr, lg⟩, hr⟩ := hrec cf ct td
  simp only [inBothEntry, hr, exceptBind_ok]
  split
  · exact ⟨_, rfl⟩
  · split
    · exact ⟨_, rfl⟩
    · exact ⟨_, rfl⟩

/-- A fully configured complex property whose two values are arrays never
raises, provided the recursive walk and the snapshot projection
themselves return normally on every input. -/
theorem processChangesStep_complex_arr_ok
    (recurse snapshot : Value → Value → TypeDescriptor → Except String (DiffRecord × List String))
    (fromRoot toRoot fromV toV : Value) (d : TypeDescriptor)
    (r : DiffRecord) (l : List String) (key nm : String) (td : TypeDescriptor)
    (pks : List String)
    (hlk : lookupProp d.properties key = some (.mk .complex (some td) (some nm)))
    (hpks : toArray td.primaryKey = some pks)
    (hrec : ∀ a b t, ∃ out, recurse a b t = .ok out)
    (hsnap : ∀ a b t, ∃ out, snapshot a b t = .ok out)
    (fromArr toArr : List Value)
    (hft : ∀ e ∈ fromArr, jsTruthy e = true) (htt : ∀ e ∈ toArr, jsTruthy e = true)
    (hfv : objGet fromV key = .arr fromArr) (htv : objGet toV key = .arr toArr) :
    ∃ out, processChangesStep recurse snapshot fromRoot toRoot fromV toV d (.inl (r, l)) key
      = .ok out := by
  obtain ⟨ch, hch⟩ : ∃ ch, getChanges fromArr toArr pks = .ok ch :=
    ⟨_, getChanges_eq fromArr toArr pks hft htt⟩
  by_cases hcond : ((!ch.removed.isEmpty || !ch.added.isEmpty)
      && !(jsTruthy (recordGet r nm))) = true
  · obtain ⟨rem, hrem⟩ := foldlM_ok
      (unmatchedEntry_ok snapshot "-" fromRoot td hsnap) ch.removed ([], l)
    obtain ⟨remAdd, hra⟩ := foldlM_ok
      (unmatchedEntry_ok snapshot "+" toRoot td hsnap) ch.added rem
    obtain ⟨md, hmd⟩ := foldlM_ok
      (inBothEntry_ok recurse pks nm td hrec) ch.inBoth
      (recordSet r nm (.arr remAdd.1), remAdd.2)
    refine ⟨.inl md, ?_⟩
    simp only [processChangesStep, hlk, PropertyDescriptor.name, PropertyDescriptor.type,
      PropertyDescriptor.descriptor, hpks, hfv, htv, hch, exceptBind_ok]
    rw [if_pos hcond]
    simp only [hrem, exceptBind_ok, hra, exceptPureBind, hmd]
    rfl
  · obtain ⟨md, hmd⟩ := foldlM_ok
      (inBothEntry_ok recurse pks nm td hrec) ch.inBoth (r, l)
    refine ⟨.inl md, ?_⟩
    simp only [processChangesStep, hlk, PropertyDescriptor.name, PropertyDescriptor.type,
      PropertyDescriptor.descriptor, hpks, hfv, htv, hch, exceptBind_ok]
    rw [if_neg hcond]
    simp only [exceptPureBind, hmd]
    rfl

/-- C5 as stated is false on the code: the reconciler's `!from || !to`
check is a JavaScript truthiness test on the element `find` returned, so
a matched falsy element — the number `0` on both sides, whose canonical
key is `id:;` — makes the walk raise the internal
`Uh oh...something didn\x27t go right` error even though the from-side
and to-side values are both arrays. -/
theorem claim_C5_counterexample :
    objGet (Value.obj [("c", .arr [.num 0])]) "c" = .arr [.num 0]
    ∧ diff (.obj [("c", .arr [.num 0])]) (.obj [("c", .arr [.num 0])])
        (.mk "Root" [("c", .mk .complex
          (some (.mk "S" [("x", .mk .number none (some "x"))] (some (.single "id"))))
          (some "c"))] none)
      = .error "Uh oh...something didn\x27t go right" :=
  ⟨rfl, rfl⟩

/-- C5 amended. At a fully configured complex-kind property (bound name,
nested descriptor and primary key all present), with the recursive walk
and the snapshot projection returning normally on every input and with
every element of an array value truthy (the elements of a complex
relation are records, so the reconciler's truthiness check on a found
element passes), the walk step raises an unrecoverable error exactly
when the from-side and to-side values are not both arrays and not both
nil; every such error carries the non-array complex type message for
the property; and when both sides are nil the property contributes
nothing — the record and the log come out unchanged. Without the
truthiness condition the only-if direction fails: a matched falsy
element raises the reconciler's internal invariant error with both
sides arrays. -/
theorem claim_C5_complex_shape_error
    (recurse snapshot : Value → Value → TypeDescriptor → Except String (DiffRecord × List String))
    (fromRoot toRoot fromV toV : Value) (d : TypeDescriptor)
    (r : DiffRecord) (l : List String) (key nm : String) (td : TypeDescriptor)
    (pks : List String)
    (hlk : lookupProp d.properties key = some (.mk .complex (some td) (some nm)))
    (hpks : toArray td.primaryKey = some pks)
    (hrec : ∀ a b t, ∃ out, recurse a b t = .ok out)
    (hsnap : ∀ a b t, ∃ out, snapshot a b t = .ok out)
    (htru : ∀ fa ta, objGet fromV key = .arr fa → objGet toV key = .arr ta →
      (∀ e ∈ fa, jsTruthy e = true) ∧ (∀ e ∈ ta, jsTruthy e = true)) :
    ((∃ e, processChangesStep recurse snapshot fromRoot toRoot fromV toV d (.inl (r, l)) key
        = .error e)
      ↔ (¬∃ fa ta, objGet fromV key = .arr fa ∧ objGet toV key = .arr ta)
        ∧ ¬(isNil (objGet fromV key) = true ∧ isNil (objGet toV key) = true))
    ∧ (∀ e, processChangesStep recurse snapshot fromRoot toRoot fromV toV d (.inl (r, l)) key
        = .error e → e = nonArrayErrorMsg nm)
    ∧ (isNil (objGet fromV key) = true → isNil (objGet toV key) = true →
        processChangesStep recurse snapshot fromRoot toRoot fromV toV d (.inl (r, l)) key
        = .ok (.inl (r, l))) := by
  have harr : ∀ fromArr toArr, objGet fromV key = .arr fromArr → objGet toV key = .arr toArr →
      ∃ out, processChangesStep recurse snapshot fromRoot toRoot fromV toV d (.inl (r, l)) key
        = .ok out :=
    fun fromArr toArr h1 h2 =>
      processChangesStep_complex_arr_ok recurse snapshot fromRoot toRoot fromV toV d r l
        key nm td pks hlk hpks hrec hsnap fromArr toArr
        (htru fromArr toArr h1 h2).1 (htru fromArr toArr h1 h2).2 h1 h2
  have hnon : (¬∃ fa ta, objGet fromV key = .arr fa ∧ objGet toV key = .arr ta) →
      processChangesStep recurse snapshot fromRoot toRoot fromV toV d (.inl (r, l)) key
        = if !(isNil (objGet fromV key)) || !(isNil (objGet toV key)) then
            Except.error (nonArrayErrorMsg nm)
          else .ok (.inl (r, l)) := by
    intro hno
    cases hfv : objGet fromV key <;> cases htv : objGet toV key <;>
      first
        | (simp only [processChangesStep, hlk, PropertyDescriptor.name, PropertyDescriptor.type,
            PropertyDescriptor.descriptor, hpks, hfv, htv]
           rfl)
        | exact absurd ⟨_, _, hfv, htv⟩ hno
  refine ⟨⟨?_, ?_⟩, ?_, ?_⟩
  · rintro ⟨e, he⟩
    by_cases hex : ∃ fa ta, objGet fromV key = .arr fa ∧ objGet toV key = .arr ta
    · obtain ⟨fa, ta, h1, h2⟩ := hex
      obtain ⟨out, hout⟩ := harr fa ta h1 h2
      rw [hout] at he
      exact nomatch he
    · refine ⟨hex, ?_⟩
      rintro ⟨n1, n2⟩
      rw [hnon hex] at he
      simp [n1, n2] at he
  · rintro ⟨hna, hnn⟩
    have hc : (!(isNil (objGet fromV key)) || !(isNil (objGet toV key))) = true := by
      cases h1 : isNil (objGet fromV key)
      · simp
      · cases h2 : isNil (objGet toV key)
        · simp
        · exact absurd ⟨h1, h2⟩ hnn
    rw [hnon hna, if_pos hc]
    exact ⟨_, rfl⟩
  · intro e he
    by_cases hex : ∃ fa ta, objGet fromV key = .arr fa ∧ objGet toV key = .arr ta
    · obtain ⟨fa, ta, h1, h2⟩ := hex
      obtain ⟨out, hout⟩ := harr fa ta h1 h2
      rw [hout] at he
      exact nomatch he
    · rw [hnon hex] at he
      cases hc : (!(isNil (objGet fromV key)) || !(isNil (objGet toV key)))
      · simp [hc] at he
      · simp [hc] at he
        exact he.symm
  · intro h1 h2
    have hno : ¬∃ fa ta, objGet fromV key = .arr fa ∧ objGet toV key = .arr ta := by
      rintro ⟨fa, ta, hf, ht⟩
      rw [hf] at h1
      exact nomatch h1
    rw [hnon hno]
    simp [h1, h2]

theorem claim_C5_complex_shape_error_witness :
    processChangesStep (fun _ _ _ => Except.ok ([], [])) (fun _ _ _ => Except.ok ([], []))
        (.obj []) (.obj []) (.obj [("c", .num 1)]) (.obj [])
        (.mk "P" [("c", .mk .complex (some (.mk "S" [("id", .mk .string none (some "id"))]
          (some (.single "id")))) (some "c"))] none)
        (.inl ([], [])) "c"
      = .error (nonArrayErrorMsg "c")
    ∧ processChangesStep (fun _ _ _ => Except.ok ([], [])) (fun _ _ _ => Except.ok ([], []))
        (.obj []) (.obj []) (.obj []) (.obj [])
        (.mk "P" [("c", .mk .complex (some (.mk "S" [("id", .mk .string none (some "id"))]
          (some (.single "id")))) (some "c"))] none)
        (.inl ([], [])) "c"
      = .ok (.inl ([], [])) := by
  constructor
  · have h := claim_C5_complex_shape_error (fun _ _ _ => Except.ok ([], []))
      (fun _ _ _ => Except.ok ([], [])) (.obj []) (.obj []) (.obj [("c", .num 1)]) (.obj [])
      (.mk "P" [("c", .mk .complex (some (.mk "S" [("id", .mk .string none (some "id"))]
        (some (.single "id")))) (some "c"))] none) [] [] "c" "c"
      (.mk "S" [("id", .mk .string none (some "id"))] (some (.single "id"))) ["id"]
      rfl rfl (fun _ _ _ => ⟨([], []), rfl⟩) (fun _ _ _ => ⟨([], []), rfl⟩)
      (fun fa ta hfa hta => nomatch hfa)
    obtain ⟨e, he⟩ := h.1.mpr ⟨(by rintro ⟨fa, ta, hf, ht⟩; exact nomatch hf),
      (by rintro ⟨h1, h2⟩; exact nomatch h1)⟩
    rw [h.2.1 e he] at he
    exact he
  · have h := claim_C5_complex_shape_error (fun _ _ _ => Except.ok ([], []))
      (fun _ _ _ => Except.ok ([], [])) (.obj []) (.obj []) (.obj []) (.obj [])
      (.mk "P" [("c", .mk .complex (some (.mk "S" [("id", .mk .string none (some "id"))]
        (some (.single "id")))) (some "c"))] none) [] [] "c" "c"
      (.mk "S" [("id", .mk .string none (some "id"))] (some (.single "id"))) ["id"]
      rfl rfl (fun _ _ _ => ⟨([], []), rfl⟩) (fun _ _ _ => ⟨([], []), rfl⟩)
      (fun fa ta hfa hta => nomatch hfa)
    exact h.2.2 rfl rfl

/-- Lodash `find` by a projection on a list whose projections are
duplicate-free locates the unique element carrying the sought
projection. -/
theorem find?_key_unique {f : Value → String} :
    ∀ {l : List Value} {e : Value} {k : String},
    (l.map f).Nodup → e ∈ l → f e = k →
    l.find? (fun x => f x == k) = some e := by
  intro l
  induction l with
  | nil => intro e k _ he _; simp at he
  | cons x xs ih =>
    intro e k hnd he hfe
    rw [List.map_cons] at hnd
    have hnd2 := List.nodup_cons.mp hnd
    rcases List.mem_cons.mp he with he | he
    · subst he
      exact List.find?_cons_of_pos _ (by simp [hfe])
    · have hx : (f x == k) = false := by
        cases hbeq : f x == k
        · rfl
        · exfalso
          have hfx : f x = k := by simpa using hbeq
          exact hnd2.1 (by
            rw [hfx, ← hfe]
            exact List.mem_map.mpr ⟨e, he, rfl⟩)
      rw [List.find?_cons_of_neg _ (by simp [hx])]
      exact ih hnd2.2 he hfe

/-- C3. Order independence: at a fully configured complex property whose
to-side array is a permutation of the from-side array, with canonical
primary-key values that are unique within the array and elements that
are well-formed, structurally compatible with the nested descriptor and
truthy (the claim's elements with a valid primary key are records, so
the reconciler's check on a found element passes), the walk step leaves
the change record untouched — the reordered property contributes no
entry to the result (the sets of removed and added elements are empty
and every matched pair diffs to nothing). -/
theorem claim_C3_order_independence
    (fuel : Nat) (fr tr fromV toV : Value) (d : TypeDescriptor)
    (r : DiffRecord) (l : List String) (key nm : String) (td : TypeDescriptor)
    (pks : List String)
    (hlk : lookupProp d.properties key = some (.mk .complex (some td) (some nm)))
    (hpks : toArray td.primaryKey = some pks)
    (fromArr toArr : List Value)
    (hfv : objGet fromV key = .arr fromArr) (htv : objGet toV key = .arr toArr)
    (hperm : List.Perm fromArr toArr)
    (hnodup : (fromArr.map (fun it => getPrimaryKeyValue it pks)).Nodup)
    (hwfe : ∀ e ∈ fromArr, wfValue e = true)
    (hce : ∀ e ∈ fromArr, compatF fuel e td = true)
    (htre : ∀ e ∈ fromArr, jsTruthy e = true) :
    ∃ l2, processChangesStep (fun f t sub => processChanges fuel [] fr tr f t sub)
        (fun root v sub => processComplexTypeTransformations fuel [] root v sub)
        fr tr fromV toV d (.inl (r, l)) key = .ok (.inl (r, l2)) := by
  have hrem0 : fromArr.filter (fun item =>
      !((intersectionL (getPrimaryKeyValues fromArr pks) (getPrimaryKeyValues toArr pks)).contains
        (getPrimaryKeyValue item pks))) = [] := by
    rw [List.filter_eq_nil_iff]
    intro item hmem
    have h1 : getPrimaryKeyValue item pks ∈ getPrimaryKeyValues fromArr pks :=
      mem_sortStrings.mpr (List.mem_map.mpr ⟨item, hmem, rfl⟩)
    have h2 : getPrimaryKeyValue item pks ∈ getPrimaryKeyValues toArr pks :=
      mem_sortStrings.mpr (List.mem_map.mpr ⟨item, hperm.mem_iff.mp hmem, rfl⟩)
    simp
    exact mem_intersectionL.mpr ⟨h1, h2⟩
  have hadd0 : toArr.filter (fun item =>
      !((intersectionL (getPrimaryKeyValues fromArr pks) (getPrimaryKeyValues toArr pks)).contains
        (getPrimaryKeyValue item pks))) = [] := by
    rw [List.filter_eq_nil_iff]
    intro item hmem
    have h1 : getPrimaryKeyValue item pks ∈ getPrimaryKeyValues fromArr pks :=
      mem_sortStrings.mpr (List.mem_map.mpr ⟨item, hperm.mem_iff.mpr hmem, rfl⟩)
    have h2 : getPrimaryKeyValue item pks ∈ getPrimaryKeyValues toArr pks :=
      mem_sortStrings.mpr (List.mem_map.mpr ⟨item, hmem, rfl⟩)
    simp
    exact mem_intersectionL.mpr ⟨h1, h2⟩
  have hch := getChanges_eq fromArr toArr pks htre
    (fun e he => htre e (hperm.mem_iff.mpr he))
  rw [hrem0, hadd0] at hch
  have hpairhyp : ∀ trip ∈ (intersectionL (getPrimaryKeyValues fromArr pks)
        (getPrimaryKeyValues toArr pks)).map
        (fun k => (k, (findByKey fromArr pks k).getD .undef,
          (findByKey toArr pks k).getD .undef)),
      trip.2.1 = trip.2.2 ∧
        ∃ logs2, processChanges fuel [] fr tr trip.2.1 trip.2.2 td = .ok ([], logs2) := by
    intro trip htrip
    obtain ⟨k, hkmem, hkeq⟩ := List.mem_map.mp htrip
    have hkf : k ∈ getPrimaryKeyValues fromArr pks := (mem_intersectionL.mp hkmem).1
    obtain ⟨e, hemem, hek⟩ := List.mem_map.mp (mem_sortStrings.mp hkf)
    have hfindf : findByKey fromArr pks k = some e := find?_key_unique hnodup hemem hek
    have hnodup2 : (toArr.map (fun it => getPrimaryKeyValue it pks)).Nodup :=
      (hperm.map _).nodup hnodup
    have hfindt : findByKey toArr pks k = some e :=
      find?_key_unique hnodup2 (hperm.mem_iff.mp hemem) hek
    subst hkeq
    refine ⟨by simp [hfindf, hfindt], ?_⟩
    simp only [hfindf, hfindt, Option.getD_some]
    exact processChanges_self fuel [] fr tr e td (hwfe e hemem) (hce e hemem)
  obtain ⟨l2, hfold⟩ := inBothFold_self pks nm
    ((intersectionL (getPrimaryKeyValues fromArr pks) (getPrimaryKeyValues toArr pks)).map
      (fun k => (k, (findByKey fromArr pks k).getD .undef,
        (findByKey toArr pks k).getD .undef)))
    r l hpairhyp
  refine ⟨l2, ?_⟩
  simp only [processChangesStep, hlk, PropertyDescriptor.name, PropertyDescriptor.type,
    PropertyDescriptor.descriptor, hpks, hfv, htv, hch, exceptBind_ok, List.isEmpty_nil,
    Bool.not_true, Bool.or_self, Bool.false_and, Bool.false_eq_true, if_false,
    exceptPureBind, hfold]
  rfl

theorem claim_C3_order_independence_witness :
    ∃ l2, processChangesStep
        (fun f t sub => processChanges 1 [] (.obj []) (.obj []) f t sub)
        (fun root v sub => processComplexTypeTransformations 1 [] root v sub)
        (.obj []) (.obj [])
        (.obj [("c", .arr [.obj [("id", .str "a")], .obj [("id", .str "b")]])])
        (.obj [("c", .arr [.obj [("id", .str "b")], .obj [("id", .str "a")]])])
        (.mk "P" [("c", .mk .complex (some (.mk "S" [("id", .mk .string none (some "id"))]
          (some (.single "id")))) (some "c"))] none)
        (.inl ([], [])) "c"
      = .ok (.inl ([], l2)) :=
  claim_C3_order_independence 1 (.obj []) (.obj [])
    (.obj [("c", .arr [.obj [("id", .str "a")], .obj [("id", .str "b")]])])
    (.obj [("c", .arr [.obj [("id", .str "b")], .obj [("id", .str "a")]])])
    (.mk "P" [("c", .mk .complex (some (.mk "S" [("id", .mk .string none (some "id"))]
      (some (.single "id")))) (some "c"))] none)
    [] [] "c" "c"
    (.mk "S" [("id", .mk .string none (some "id"))] (some (.single "id"))) ["id"]
    rfl rfl
    [.obj [("id", .str "a")], .obj [("id", .str "b")]]
    [.obj [("id", .str "b")], .obj [("id", .str "a")]]
    rfl rfl (List.Perm.swap _ _ _) (by decide) (by decide) (by decide) (by decide)

/-- C9. Sparse snapshots: in the snapshot projector, a primitive property
is copied verbatim into the rendered record when its value is not nil and
contributes no key when it is nil; a complex property whose value is an
array has each element rendered recursively and the resulting sequence is
included exactly when it is non-empty; and a complex property whose value
is nil contributes no key at all. -/
theorem claim_C9_sparse_snapshots
    (recurse : Value → TypeDescriptor → Except String (DiffRecord × List String))
    (property : Value) (d : TypeDescriptor) (res : DiffRecord) (logs : List String)
    (key nm : String) (pd : PropertyDescriptor)
    (hlk : lookupProp d.properties key = some pd)
    (hname : pd.name = some nm) :
    (pd.type ≠ .complex →
      snapshotStep recurse property d (.inl (res, logs)) key
        = .ok (.inl ((if isNil (objGet property nm) then res
            else recordSet res nm (objGet property nm)), logs)))
    ∧ (∀ td items irs lg2, pd.descriptor = some td →
        pd.type = .complex →
        objGet property key = .arr items →
        items.foldlM (snapshotItem recurse td) ([], logs) = .ok (irs, lg2) →
        snapshotStep recurse property d (.inl (res, logs)) key
          = .ok (.inl ((if irs.isEmpty then res else recordSet res nm (.arr irs)), lg2)))
    ∧ (∀ td, pd.descriptor = some td → pd.type = .complex →
        isNil (objGet property key) = true →
        snapshotStep recurse property d (.inl (res, logs)) key = .ok (.inl (res, logs))) := by
  obtain ⟨pt, od, pn⟩ := pd
  have hpn : pn = some nm := by simpa [PropertyDescriptor.name] using hname
  subst hpn
  refine ⟨?_, ?_, ?_⟩
  · intro hprim
    cases pt <;>
      first
        | exact absurd rfl hprim
        | (simp only [snapshotStep, hlk, PropertyDescriptor.name, PropertyDescriptor.type]
           cases hnil : isNil (objGet property nm)
           · rfl
           · rfl)
  · intro td items irs lg2 htd htype hv hfold
    have hod : od = some td := by simpa [PropertyDescriptor.descriptor] using htd
    have hpt : pt = .complex := by simpa [PropertyDescriptor.type] using htype
    subst hod
    subst hpt
    simp only [snapshotStep, hlk, PropertyDescriptor.name, PropertyDescriptor.type,
      PropertyDescriptor.descriptor, hv, hfold, exceptBind_ok]
    cases hirs : irs.isEmpty
    · rfl
    · rfl
  · intro td htd htype hnil
    have hod : od = some td := by simpa [PropertyDescriptor.descriptor] using htd
    have hpt : pt = .complex := by simpa [PropertyDescriptor.type] using htype
    subst hod
    subst hpt
    cases hv : objGet property key <;>
      first
        | (simp only [snapshotStep, hlk, PropertyDescriptor.name, PropertyDescriptor.type,
            PropertyDescriptor.descriptor, hv]
           rfl)
        | (rw [hv] at hnil; exact nomatch hnil)

theorem claim_C9_sparse_snapshots_witness :
    snapshotStep (fun _ _ => Except.ok ([], [])) (.obj [("p", .num 5)])
        (.mk "S" [("p", .mk .string none (some "p"))] none) (.inl ([], [])) "p"
      = .ok (.inl ([("p", .num 5)], []))
    ∧ snapshotStep (fun _ _ => Except.ok ([], [])) (.obj [])
        (.mk "S" [("p", .mk .string none (some "p"))] none) (.inl ([], [])) "p"
      = .ok (.inl ([], [])) := by
  constructor
  · exact (claim_C9_sparse_snapshots (fun _ _ => Except.ok ([], [])) (.obj [("p", .num 5)])
      (.mk "S" [("p", .mk .string none (some "p"))] none) [] [] "p" "p"
      (.mk .string none (some "p")) rfl rfl).1 (by decide)
  · exact (claim_C9_sparse_snapshots (fun _ _ => Except.ok ([], [])) (.obj [])
      (.mk "S" [("p", .mk .string none (some "p"))] none) [] [] "p" "p"
      (.mk .string none (some "p")) rfl rfl).1 (by decide)

/-! Characterisation of the primitive branch of the walk step, shared by
the antisymmetry analysis: the scalar comparison and the set diff of two
arrays. -/

theorem processChangesStep_scalar
    (recurse snapshot : Value → Value → TypeDescriptor → Except String (DiffRecord × List String))
    (fromRoot toRoot fromV toV : Value) (d : TypeDescriptor)
    (r : DiffRecord) (l : List String) (key nm : String) (pd : PropertyDescriptor)
    (hlk : lookupProp d.properties key = some pd)
    (hname : pd.name = some nm) (hprim : pd.type ≠ .complex)
    (hfa : ∀ xs, objGet fromV nm ≠ .arr xs) (hta : ∀ xs, objGet toV nm ≠ .arr xs) :
    processChangesStep recurse snapshot fromRoot toRoot fromV toV d (.inl (r, l)) key
      = if isEqual (objGet fromV nm) (objGet toV nm) then .ok (.inl (r, l))
        else .ok (.inl (recordSet r nm
            (.obj [("-", objGet fromV nm), ("+", objGet toV nm)]), l)) := by
  obtain ⟨pt, od, pn⟩ := pd
  have hpn : pn = some nm := by simpa [PropertyDescriptor.name] using hname
  subst hpn
  cases pt <;>
    first
      | exact absurd rfl hprim
      | (cases hfv : objGet fromV nm <;> cases htv : objGet toV nm <;>
          first
            | exact absurd hfv (hfa _)
            | exact absurd htv (hta _)
            | (simp only [processChangesStep, hlk, PropertyDescriptor.name,
                PropertyDescriptor.type, hfv, htv]
               rfl))

theorem processChangesStep_prim_arr
    (recurse snapshot : Value → Value → TypeDescriptor → Except String (DiffRecord × List String))
    (fromRoot toRoot fromV toV : Value) (d : TypeDescriptor)
    (r : DiffRecord) (l : List String) (key nm : String) (pd : PropertyDescriptor)
    (hlk : lookupProp d.properties key = some pd)
    (hname : pd.name = some nm) (hprim : pd.type ≠ .complex)
    (fromArr toArr : List Value)
    (hfv : objGet fromV nm = .arr fromArr) (htv : objGet toV nm = .arr toArr) :
    (fromArr.filter (fun item =>
        !((toArr.map jsonStringify).contains (jsonStringify item))) = [] →
     toArr.filter (fun item =>
        !((fromArr.map jsonStringify).contains (jsonStringify item))) = [] →
     processChangesStep recurse snapshot fromRoot toRoot fromV toV d (.inl (r, l)) key
       = .ok (.inl (r, l)))
    ∧ (¬(fromArr.filter (fun item =>
          !((toArr.map jsonStringify).contains (jsonStringify item))) = []
        ∧ toArr.filter (fun item =>
          !((fromArr.map jsonStringify).contains (jsonStringify item))) = []) →
       processChangesStep recurse snapshot fromRoot toRoot fromV toV d (.inl (r, l)) key
         = .ok (.inl (recordSet r nm (.arr (
             (if !(fromArr.filter (fun item =>
                  !((toArr.map jsonStringify).contains (jsonStringify item)))).isEmpty
              then [Value.obj [("-", .arr (sortValues (fromArr.filter (fun item =>
                !((toArr.map jsonStringify).contains (jsonStringify item))))))]]
              else [])
             ++ (if !(toArr.filter (fun item =>
                  !((fromArr.map jsonStringify).contains (jsonStringify item)))).isEmpty
              then [Value.obj [("+", .arr (sortValues (toArr.filter (fun item =>
                !((fromArr.map jsonStringify).contains (jsonStringify item))))))]]
              else []))), l))) := by
  obtain ⟨pt, od, pn⟩ := pd
  have hpn : pn = some nm := by simpa [PropertyDescriptor.name] using hname
  subst hpn
  constructor
  · intro h1 h2
    cases pt <;>
      first
        | exact absurd rfl hprim
        | (simp only [processChangesStep, hlk, PropertyDescriptor.name,
             PropertyDescriptor.type, hfv, htv, stringifyFilter_eq, stringifyFilterAdded_eq,
             h1, h2, List.isEmpty_nil, Bool.not_true, Bool.or_self, Bool.false_eq_true,
             if_false]
           rfl)
  · intro hne
    have hcond : (!(fromArr.filter (fun item =>
          !((toArr.map jsonStringify).contains (jsonStringify item)))).isEmpty
        || !(toArr.filter (fun item =>
          !((fromArr.map jsonStringify).contains (jsonStringify item)))).isEmpty) = true := by
      by_cases hr : fromArr.filter (fun item =>
          !((toArr.map jsonStringify).contains (jsonStringify item))) = []
      · have ha : toArr.filter (fun item =>
            !((fromArr.map jsonStringify).contains (jsonStringify item))) ≠ [] :=
          fun h => hne ⟨hr, h⟩
        have hb : (toArr.filter (fun item =>
            !((fromArr.map jsonStringify).contains (jsonStringify item)))).isEmpty = false := by
          cases hq : (toArr.filter (fun item =>
              !((fromArr.map jsonStringify).contains (jsonStringify item)))).isEmpty
          · rfl
          · exact absurd (List.isEmpty_iff.mp hq) ha
        rw [hb]
        simp only [Bool.not_false, Bool.or_true]
      · have hb : (fromArr.filter (fun item =>
            !((toArr.map jsonStringify).contains (jsonStringify item)))).isEmpty = false := by
          cases hq : (fromArr.filter (fun item =>
              !((toArr.map jsonStringify).contains (jsonStringify item)))).isEmpty
          · rfl
          · exact absurd (List.isEmpty_iff.mp hq) hr
        rw [hb]
        simp only [Bool.not_false, Bool.true_or]
    cases pt <;>
      first
        | exact absurd rfl hprim
        | (simp only [processChangesStep, hlk, PropertyDescriptor.name,
             PropertyDescriptor.type, hfv, htv, stringifyFilter_eq, stringifyFilterAdded_eq,
             hcond, if_true]
           rfl)

/-- C8 as stated is false on the code: a matched pair of complex array
elements whose canonical keys coincide only case-insensitively carries
the from-side primary-key field values into the result entry, so
swapping the inputs changes a field that sits outside every marker.
Forward, the matched car entry reads `id: "A"`; backward it reads
`id: "a"`, and `"A" ≠ "a"`, so the two results do not differ merely by
a pairwise swap of removed and added markers. -/
theorem claim_C8_counterexample :
    diff (.obj [("cars", .arr [.obj [("id", .str "A"), ("x", .num 1)]])])
        (.obj [("cars", .arr [.obj [("id", .str "a"), ("x", .num 2)]])])
        (.mk "Root" [("cars", .mk .complex
          (some (.mk "Car" [("x", .mk .number none (some "x"))] (some (.single "id"))))
          (some "cars"))] none)
      = .ok ([("cars", .arr [.obj [("id", .str "A"),
          ("x", .obj [("-", .num 1), ("+", .num 2)])]])], [])
    ∧ diff (.obj [("cars", .arr [.obj [("id", .str "a"), ("x", .num 2)]])])
        (.obj [("cars", .arr [.obj [("id", .str "A"), ("x", .num 1)]])])
        (.mk "Root" [("cars", .mk .complex
          (some (.mk "Car" [("x", .mk .number none (some "x"))] (some (.single "id"))))
          (some "cars"))] none)
      = .ok ([("cars", .arr [.obj [("id", .str "a"),
          ("x", .obj [("-", .num 2), ("+", .num 1)])]])], [])
    ∧ (Value.str "A" ≠ Value.str "a") :=
  ⟨rfl, rfl, fun h => by injection h with h2; exact absurd h2 (by decide)⟩

/-- C8 amended. Restricted to primitive-kind properties, swapping the
inputs swaps every removed marker with the corresponding added marker
pairwise and leaves the set of changed property names identical: for two
array values the backward step's removed set is the forward added set
and vice versa (and neither direction emits an entry when both sets are
empty), and for two non-array values the directions either both leave
the record unchanged (equal values) or both set the property to a
marker pair with the sides exchanged. -/
theorem claim_C8_primitive_swap
    (recurse snapshot : Value → Value → TypeDescriptor → Except String (DiffRecord × List String))
    (fromRoot toRoot fromV toV : Value) (d : TypeDescriptor)
    (r : DiffRecord) (l : List String) (key nm : String) (pd : PropertyDescriptor)
    (hlk : lookupProp d.properties key = some pd)
    (hname : pd.name = some nm) (hprim : pd.type ≠ .complex) :
    (∀ fromArr toArr, objGet fromV nm = .arr fromArr → objGet toV nm = .arr toArr →
      (fromArr.filter (fun item =>
          !((toArr.map jsonStringify).contains (jsonStringify item))) = [] →
       toArr.filter (fun item =>
          !((fromArr.map jsonStringify).contains (jsonStringify item))) = [] →
       processChangesStep recurse snapshot fromRoot toRoot fromV toV d (.inl (r, l)) key
         = .ok (.inl (r, l))
       ∧ processChangesStep recurse snapshot fromRoot toRoot toV fromV d (.inl (r, l)) key
         = .ok (.inl (r, l)))
      ∧ (¬(fromArr.filter (fun item =>
            !((toArr.map jsonStringify).contains (jsonStringify item))) = []
          ∧ toArr.filter (fun item =>
            !((fromArr.map jsonStringify).contains (jsonStringify item))) = []) →
         processChangesStep recurse snapshot fromRoot toRoot fromV toV d (.inl (r, l)) key
           = .ok (.inl (recordSet r nm (.arr (
               (if !(fromArr.filter (fun item =>
                    !((toArr.map jsonStringify).contains (jsonStringify item)))).isEmpty
                then [Value.obj [("-", .arr (sortValues (fromArr.filter (fun item =>
                  !((toArr.map jsonStringify).contains (jsonStringify item))))))]]
                else [])
               ++ (if !(toArr.filter (fun item =>
                    !((fromArr.map jsonStringify).contains (jsonStringify item)))).isEmpty
                then [Value.obj [("+", .arr (sortValues (toArr.filter (fun item =>
                  !((fromArr.map jsonStringify).contains (jsonStringify item))))))]]
                else []))), l))
         ∧ processChangesStep recurse snapshot fromRoot toRoot toV fromV d (.inl (r, l)) key
           = .ok (.inl (recordSet r nm (.arr (
               (if !(toArr.filter (fun item =>
                    !((fromArr.map jsonStringify).contains (jsonStringify item)))).isEmpty
                then [Value.obj [("-", .arr (sortValues (toArr.filter (fun item =>
                  !((fromArr.map jsonStringify).contains (jsonStringify item))))))]]
                else [])
               ++ (if !(fromArr.filter (fun item =>
                    !((toArr.map jsonStringify).contains (jsonStringify item)))).isEmpty
                then [Value.obj [("+", .arr (sortValues (fromArr.filter (fun item =>
                  !((toArr.map jsonStringify).contains (jsonStringify item))))))]]
                else []))), l))))
    ∧ ((∀ xs, objGet fromV nm ≠ .arr xs) → (∀ xs, objGet toV nm ≠ .arr xs) →
       wfValue (objGet fromV nm) = true → wfValue (objGet toV nm) = true →
       ((isEqual (objGet fromV nm) (objGet toV nm) = true →
          processChangesStep recurse snapshot fromRoot toRoot fromV toV d (.inl (r, l)) key
            = .ok (.inl (r, l))
          ∧ processChangesStep recurse snapshot fromRoot toRoot toV fromV d (.inl (r, l)) key
            = .ok (.inl (r, l)))
        ∧ (isEqual (objGet fromV nm) (objGet toV nm) = false →
          processChangesStep recurse snapshot fromRoot toRoot fromV toV d (.inl (r, l)) key
            = .ok (.inl (recordSet r nm
                (.obj [("-", objGet fromV nm), ("+", objGet toV nm)]), l))
          ∧ processChangesStep recurse snapshot fromRoot toRoot toV fromV d (.inl (r, l)) key
            = .ok (.inl (recordSet r nm
                (.obj [("-", objGet toV nm), ("+", objGet fromV nm)]), l))))) := by
  constructor
  · intro fromArr toArr hfv htv
    have hfwd := processChangesStep_prim_arr recurse snapshot fromRoot toRoot fromV toV d r l
      key nm pd hlk hname hprim fromArr toArr hfv htv
    have hbwd := processChangesStep_prim_arr recurse snapshot fromRoot toRoot toV fromV d r l
      key nm pd hlk hname hprim toArr fromArr htv hfv
    refine ⟨fun h1 h2 => ⟨hfwd.1 h1 h2, hbwd.1 h2 h1⟩, fun hne => ?_⟩
    exact ⟨hfwd.2 hne, hbwd.2 (fun hc => hne ⟨hc.2, hc.1⟩)⟩
  · intro hfa hta hwf1 hwf2
    have hfw := processChangesStep_scalar recurse snapshot fromRoot toRoot fromV toV d r l
      key nm pd hlk hname hprim hfa hta
    have hbw := processChangesStep_scalar recurse snapshot fromRoot toRoot toV fromV d r l
      key nm pd hlk hname hprim hta hfa
    have hsym := isEqual_symm (objGet fromV nm) (objGet toV nm) hwf1 hwf2
    rw [← hsym] at hbw
    constructor
    · intro heq
      rw [heq] at hfw hbw
      exact ⟨hfw.trans (by rfl), hbw.trans (by rfl)⟩
    · intro hne
      rw [hne] at hfw hbw
      exact ⟨hfw.trans (by rfl), hbw.trans (by rfl)⟩

theorem claim_C8_primitive_swap_witness :
    processChangesStep (fun _ _ _ => Except.error "r") (fun _ _ _ => Except.error "s")
        (.obj []) (.obj []) (.obj [("s", .str "x")]) (.obj [("s", .str "y")])
        (.mk "P" [("s", .mk .string none (some "s"))] none) (.inl ([], [])) "s"
      = .ok (.inl ([("s", .obj [("-", .str "x"), ("+", .str "y")])], []))
    ∧ processChangesStep (fun _ _ _ => Except.error "r") (fun _ _ _ => Except.error "s")
        (.obj []) (.obj []) (.obj [("s", .str "y")]) (.obj [("s", .str "x")])
        (.mk "P" [("s", .mk .string none (some "s"))] none) (.inl ([], [])) "s"
      = .ok (.inl ([("s", .obj [("-", .str "y"), ("+", .str "x")])], [])) := by
  have h := (claim_C8_primitive_swap (fun _ _ _ => Except.error "r")
    (fun _ _ _ => Except.error "s") (.obj []) (.obj [])
    (.obj [("s", .str "x")]) (.obj [("s", .str "y")])
    (.mk "P" [("s", .mk .string none (some "s"))] none) [] [] "s" "s"
    (.mk .string none (some "s")) rfl rfl (by decide)).2
    (fun xs hx => nomatch hx) (fun xs hx => nomatch hx) rfl rfl
  exact h.2 rfl

end ObjectDiff
